import Mathlib

/-!
# Verification of the markdown-to-slides compiler (`pptxGenerator.js`)

A shallow embedding of the core functions of the PPTX generator module:
`parseMarkdown`, `parseBullets`, `parseCodeBlocks` (fence extraction),
`parseTables` / the table pass of `parseContentElements`, the
line-classification pass of `parseContentElements`, the layout flow of
`addContentSlide`, the slide assembly of `generatePresentation`, and the
archive post-processing of `fixForGoogleSlides`.

Strings are modelled by Lean `String` (a wrapper around `List Char`);
the JavaScript string operations used by the source (`split`, `trim`,
`startsWith`, `endsWith`, `replace`, `toLowerCase`) are re-implemented
below as executable char-list functions so that all reasoning stays
under our control.  JavaScript `\s` (as used by the source's regexes on
practical input) is modelled by the ASCII whitespace characters; `\w` is
`[A-Za-z0-9_]` and `\d` is `[0-9]`, exactly as in JavaScript.
Regex matching in the source is deterministic on every pattern it uses
(each quantifier is followed by a character its class excludes), so each
regex is translated to the corresponding maximal-munch scanner.
-/

namespace PptxGen

/-! ## Character and string primitives -/

/-- ASCII whitespace, modelling the characters JavaScript `\s` matches on
practical input. -/
def isWS (c : Char) : Bool := c = ' ' || c = '\t' || c = '\n' || c = '\r'

/-- JavaScript `\w`: ASCII letters, digits and underscore. -/
def isWordChar (c : Char) : Bool := c.isAlpha || c.isDigit || c = '_'

/-- Trim ASCII whitespace from both ends of a char list (JS `trim`). -/
def trimCh (cs : List Char) : List Char :=
  ((cs.dropWhile isWS).reverse.dropWhile isWS).reverse

/-- JS `String.prototype.trim`. -/
def jsTrim (s : String) : String := String.mk (trimCh s.data)

/-- Split a char list at every occurrence of the separator character,
matching JS `String.prototype.split(sep)` for a one-character separator:
`"a|b" ↦ ["a","b"]`, `"|" ↦ ["",""]`, `"" ↦ [""]`. -/
def splitChAux (sep : Char) : List Char → List (List Char)
  | [] => [[]]
  | c :: cs =>
    if c = sep then [] :: splitChAux sep cs
    else
      match splitChAux sep cs with
      | [] => [[c]]
      | l :: ls => (c :: l) :: ls

/-- JS `split` for a one-character separator, on `String`. -/
def splitCh (sep : Char) (s : String) : List String :=
  (splitChAux sep s.data).map String.mk

/-- Join char lists with a separator character (JS `Array.prototype.join`). -/
def joinChAux (sep : Char) : List (List Char) → List Char
  | [] => []
  | [l] => l
  | l :: ls => l ++ sep :: joinChAux sep ls

/-- JS `join` for a one-character separator, on `String`. -/
def joinCh (sep : Char) (ls : List String) : String :=
  String.mk (joinChAux sep (ls.map String.data))

/-- The lines of a string (JS `split('\n')`). -/
def linesOf (s : String) : List String := splitCh '\n' s

/-- Join lines with `'\n'` (JS `join('\n')`). -/
def joinNl (ls : List String) : String := joinCh '\n' ls

/-- JS `String.prototype.startsWith`. -/
def leadsWith (s p : String) : Bool := p.data.isPrefixOf s.data

/-- JS `String.prototype.endsWith`. -/
def trailsWith (s p : String) : Bool := p.data.isSuffixOf s.data

/-- JS `String.prototype.toLowerCase` (ASCII range). -/
def jsToLower (s : String) : String := String.mk (s.data.map Char.toLower)

/-- Replace the first occurrence of a non-empty pattern (JS
`String.prototype.replace` with a string pattern).  With an empty
pattern, JS prepends the replacement, which this definition also does. -/
def replaceFirstCh (pat rep : List Char) : List Char → List Char
  | [] => []
  | c :: cs =>
    if pat.isPrefixOf (c :: cs) then rep ++ (c :: cs).drop pat.length
    else c :: replaceFirstCh pat rep cs

/-- JS `replace` (first occurrence) on `String`. -/
def jsReplaceFirst (s pat rep : String) : String :=
  String.mk (replaceFirstCh pat.data rep.data s.data)

/-- Worker for `replaceAllCh`: `skip` counts matched characters still to
be consumed without re-matching (so matches never overlap). -/
def replGo (pat rep : List Char) : Nat → List Char → List Char
  | _, [] => []
  | skip + 1, _ :: cs => replGo pat rep skip cs
  | 0, c :: cs =>
    if pat ≠ [] ∧ pat.isPrefixOf (c :: cs) then
      rep ++ replGo pat rep (pat.length - 1) cs
    else c :: replGo pat rep 0 cs

/-- Replace every occurrence of a non-empty pattern, left to right
(JS `text.split(old).join(new)`; an empty pattern is never used by the
source and is left as the identity here). -/
def replaceAllCh (pat rep cs : List Char) : List Char := replGo pat rep 0 cs

/-- JS `text.split(old).join(new)` on `String`. -/
def jsReplaceAll (s pat rep : String) : String :=
  String.mk (replaceAllCh pat.data rep.data s.data)

/-! ## `parseMarkdown` (document → slide records)

The source splits the body on the multiline-anchored marker
`/^## /m` and keeps the non-blank chunks; each chunk's first line is
matched against `/^\[(\w+)\]\s*(.*)$/`. -/

/-- A slide record: declared type tag, title, raw body. -/
structure SlideRec where
  type : String
  title : String
  content : String
  deriving DecidableEq, Repr

/-- Split the document lines at slide-header lines (lines starting with
the marker `"## "`, which `/^## /m` matches and removes).  Returns the
lines before the first header and, for each header, its chunk of lines
with the marker stripped from the header line. -/
def splitAtHeaders : List String → List String × List (List String)
  | [] => ([], [])
  | l :: ls =>
    let r := splitAtHeaders ls
    if leadsWith l "## " then ([], (String.mk (l.data.drop 3) :: r.1) :: r.2)
    else (l :: r.1, r.2)

/-- The chunk strings produced by `body.split(/^## /m)`, in order:
the text before the first header followed by one chunk per header. -/
def sectionsOf (body : String) : List String :=
  let r := splitAtHeaders (linesOf body)
  joinNl r.1 :: r.2.map joinNl

/-- The header-line match `/^\[(\w+)\]\s*(.*)$/`: a bracketed word tag
followed by optional whitespace and the title. -/
def headerMatch (h : String) : Option (String × String) :=
  match h.data with
  | '[' :: rest =>
    let w := rest.takeWhile isWordChar
    if w = [] then none
    else
      match rest.drop w.length with
      | ']' :: r2 => some (String.mk w, String.mk (r2.dropWhile isWS))
      | _ => none
  | _ => none

/-- Build one slide record from a chunk string (source lines 18–32):
trim, split into lines, parse the first line's type tag, join and trim
the remaining lines. -/
def mkSlide (sec : String) : SlideRec :=
  let lines := linesOf (jsTrim sec)
  let headerLine := lines.headD ""
  let content := jsTrim (joinNl (lines.drop 1))
  match headerMatch headerLine with
  | some r => ⟨jsToLower r.1, r.2, content⟩
  | none => ⟨"content", headerLine, content⟩

/-- `parseMarkdown`, applied to the document body with frontmatter
already removed (the `slides` component of the source's return value). -/
def parseMarkdownBody (body : String) : List SlideRec :=
  ((sectionsOf body).filter (fun s => jsTrim s ≠ "")).map mkSlide

/-! ## `parseBullets` -/

/-- A bullet: text and nesting level. -/
structure Bullet where
  text : String
  level : Nat
  deriving DecidableEq, Repr

/-- Match one line against `/^(\s*)[-*•]\s+(.+)$/`.  The scanner follows
the regex's backtracking: after the bullet marker there must be at least
one whitespace character; `(.+)` takes the remainder, stealing back the
last whitespace character when nothing else is left. -/
def parseBulletLine (l : String) : Option Bullet :=
  let cs := l.data
  let ind := cs.takeWhile isWS
  match cs.drop ind.length with
  | b :: rest =>
    if b = '-' || b = '*' || b = '•' then
      let w := rest.takeWhile isWS
      if w.length = 0 then none
      else if w.length < rest.length then
        some ⟨String.mk (rest.drop w.length), ind.length / 2⟩
      else if 2 ≤ w.length then
        some ⟨String.mk (rest.drop (w.length - 1)), ind.length / 2⟩
      else none
    else none
  | [] => none

/-- `parseBullets`: the bullet lines of a content block, with
`level = floor(indent / 2)`. -/
def parseBullets (content : String) : List Bullet :=
  (linesOf content).filterMap parseBulletLine

/-- The accumulation test `/^\s*[-*•]\s+/.test(line)` used by the
line-classification pass (weaker than `parseBulletLine`: it does not
require any text after the whitespace). -/
def isBulletLine (l : String) : Bool :=
  let cs := l.data
  let rest := cs.drop (cs.takeWhile isWS).length
  match rest with
  | b :: r => (b = '-' || b = '*' || b = '•') && (r.takeWhile isWS).length ≠ 0
  | [] => false

/-! ## Tables

The table pass of `parseContentElements` (source lines 147–186; the same
row loop appears in `parseTables`): contiguous runs of lines whose trim
starts with `|` are collected, runs of length ≥ 2 are parsed into rows,
and qualifying runs are replaced by a `__TABLE_k__` placeholder line. -/

/-- One table row: cells and header flag. -/
structure TableRow where
  cells : List String
  isHeader : Bool
  deriving DecidableEq, Repr

/-- `line.trim().startsWith('|')` — the run-continuation test. -/
def startsPipe (l : String) : Bool := leadsWith (jsTrim l) "|"

/-- `line.trim().startsWith('|') && line.trim().endsWith('|')` — the
run-start test. -/
def pipeDelim (l : String) : Bool :=
  leadsWith (jsTrim l) "|" && trailsWith (jsTrim l) "|"

/-- The cells of a table line:
`tableLine.split('|').slice(1, -1).map(cell => cell.trim())`. -/
def rowCells (l : String) : List String :=
  (((splitCh '|' l).drop 1).dropLast).map jsTrim

/-- Scan for a concrete pattern at any position (JS
`String.prototype.includes`). -/
def hasSeq (pat : List Char) : List Char → Bool
  | [] => pat.isEmpty
  | c :: cs => pat.isPrefixOf (c :: cs) || hasSeq pat cs

/-- The separator-row class `[\s:-]`. -/
def isSepChar (c : Char) : Bool := isWS c || c = ':' || c = '-'

/-- `/^\|[\s:-]+\|/.test(line)`: a literal `|`, a non-empty run of
separator-class characters, then another `|` (tested on the raw,
untrimmed line, and not anchored at the end). -/
def sepRun (l : String) : Bool :=
  match l.data with
  | '|' :: rest =>
    let run := rest.takeWhile isSepChar
    decide (run ≠ []) && "|".data.isPrefixOf (rest.drop run.length)
  | _ => false

/-- The full separator-row test of the source:
`/^\|[\s:-]+\|/.test(tableLine) && tableLine.includes('---')`. -/
def isSepLine (l : String) : Bool := sepRun l && hasSeq "---".data l.data

/-- The row loop (source lines 161–175), threading the `isHeader` flag:
a separator row clears the flag and is skipped; a row with at least one
cell is emitted with the current flag, which is then cleared. -/
def tableRowsAux (hdr : Bool) : List String → List TableRow
  | [] => []
  | l :: ls =>
    if isSepLine l then tableRowsAux false ls
    else if rowCells l ≠ [] then ⟨rowCells l, hdr⟩ :: tableRowsAux false ls
    else tableRowsAux hdr ls

/-- The rows parsed from one table block. -/
def tableRowsOf (ls : List String) : List TableRow := tableRowsAux true ls

/-- The placeholder string `__TABLE_k__`. -/
def tablePH (k : Nat) : String := "__TABLE_" ++ toString k ++ "__"

/-- The table-extraction pass (source lines 147–186), written as a
line-by-line state machine: `acc` holds the run of pipe lines collected
so far (a run starts at a line whose trim starts and ends with `|` and
continues over lines whose trim starts with `|`, exactly the two loops
of the source).  When a run closes, it is emitted as a placeholder line
plus a recorded table if it has ≥ 2 lines and parses to at least one
row (numbered by the running count `k`); otherwise its lines are
consumed and dropped.  Returns the rewritten lines and the tables. -/
def extractAux (k : Nat) (acc : List String) : List String → List String × List (String × List TableRow)
  | [] =>
    if 2 ≤ acc.length ∧ tableRowsOf acc ≠ [] then
      ([tablePH k], [(tablePH k, tableRowsOf acc)])
    else ([], [])
  | l :: ls =>
    if acc = [] then
      if pipeDelim l then extractAux k [l] ls
      else
        let r := extractAux k [] ls
        (l :: r.1, r.2)
    else
      if startsPipe l then extractAux k (acc ++ [l]) ls
      else
        if 2 ≤ acc.length ∧ tableRowsOf acc ≠ [] then
          let r := extractAux (k + 1) [] ls
          (tablePH k :: l :: r.1, (tablePH k, tableRowsOf acc) :: r.2)
        else
          let r := extractAux k [] ls
          (l :: r.1, r.2)

/-- The table-extraction pass, started with an empty run. -/
def extractTables (k : Nat) (ls : List String) :
    List String × List (String × List TableRow) :=
  extractAux k [] ls

/-! ## Fenced code blocks

The regex `/```(\w*)\r?\n([\s\S]*?)```/g` (source lines 127–140): a
triple backtick, an optional word-character language tag, an optional
`\r`, a mandatory `\n`, then a lazy body up to the earliest closing
triple backtick.  Each match is replaced (first occurrence, as JS
`String.replace` with a string pattern) by `__CODE_BLOCK_i__`. -/

/-- Find the earliest triple backtick; returns the text before it and
the text after it. -/
def findTriple : List Char → Option (List Char × List Char)
  | [] => none
  | c :: cs =>
    if "```".data.isPrefixOf (c :: cs) then some ([], cs.drop 2)
    else (findTriple cs).map (fun p => (c :: p.1, p.2))

/-- Try to match the fence regex at the start of the input.  Returns
`(match, languageTag, rawBody, rest)`. -/
def fenceHere (cs : List Char) : Option (List Char × String × List Char × List Char) :=
  if "```".data.isPrefixOf cs then
    let lang := (cs.drop 3).takeWhile isWordChar
    match (cs.drop 3).dropWhile isWordChar with
    | '\r' :: '\n' :: t =>
      (findTriple t).map fun p =>
        ("```".data ++ lang ++ '\r' :: '\n' :: p.1 ++ "```".data, String.mk lang, p.1, p.2)
    | '\n' :: t =>
      (findTriple t).map fun p =>
        ("```".data ++ lang ++ '\n' :: p.1 ++ "```".data, String.mk lang, p.1, p.2)
    | _ => none
  else none

/-- Find the earliest fence match in the input.  Returns
`(pre, match, languageTag, rawBody, rest)` with
`input = pre ++ match ++ rest`. -/
def findFence : List Char → Option (List Char × List Char × String × List Char × List Char)
  | [] => none
  | c :: cs =>
    match fenceHere (c :: cs) with
    | some r => some ([], r.1, r.2.1, r.2.2.1, r.2.2.2)
    | none => (findFence cs).map (fun r => (c :: r.1, r.2))

/-- Fuelled worker for `scanFences`; every match consumes at least one
character, so fuel equal to the input length is always sufficient. -/
def scanGo : Nat → List Char → List (String × List Char × List Char)
  | 0, _ => []
  | fuel + 1, cs =>
    match findFence cs with
    | none => []
    | some (_pre, m, lang, body, rest) => (lang, body, m) :: scanGo fuel rest

/-- All fence matches, left to right, continuing after each match (the
`while (regex.exec(content))` loop).  Returns `(languageTag, rawBody,
matchString)` per match. -/
def scanFences (cs : List Char) : List (String × List Char × List Char) :=
  scanGo cs.length cs

/-- One extracted code block: placeholder, language, trimmed code. -/
structure CodeBlockRec where
  placeholder : String
  language : String
  code : String
  deriving DecidableEq, Repr

/-- The placeholder string `__CODE_BLOCK_i__`. -/
def codePH (i : Nat) : String := "__CODE_BLOCK_" ++ toString i ++ "__"

/-- The code-block extraction pass (source lines 127–140): find all
fence matches in the original content, record
`(placeholder, language || 'text', body.trim())` for each, and replace
each match string by its placeholder (first occurrence) in the working
content, in match order. -/
def extractCodeBlocks (content : String) : String × List CodeBlockRec :=
  let ms := (scanFences content.data).enum
  (ms.foldl (fun w p => jsReplaceFirst w (String.mk p.2.2.2) (codePH p.1)) content,
   ms.map fun p =>
     ⟨codePH p.1, if p.2.1 = "" then "text" else p.2.1, jsTrim (String.mk p.2.2.1)⟩)

/-! ## The line-classification pass (source lines 191–270) -/

/-- Test for the token `tag` followed by one or more digits and `__`,
anchored at the start of the input. -/
def tokHere (tag : List Char) (cs : List Char) : Bool :=
  tag.isPrefixOf cs &&
    (let r := cs.drop tag.length
     let ds := r.takeWhile Char.isDigit
     decide (ds ≠ []) && "__".data.isPrefixOf (r.drop ds.length))

/-- Scan for the token anywhere in the line (an unanchored regex
test). -/
def hasTokAux (tag : List Char) : List Char → Bool
  | [] => false
  | c :: cs => tokHere tag (c :: cs) || hasTokAux tag cs

/-- `/__CODE_BLOCK_(\d+)__/.test-style match (the source uses
`line.match(...)` as a condition). -/
def hasCodeTok (l : String) : Bool := hasTokAux "__CODE_BLOCK_".data l.data

/-- `/__TABLE_(\d+)__/` match used as a condition. -/
def hasTableTok (l : String) : Bool := hasTokAux "__TABLE_".data l.data

/-- A parsed content element. -/
inductive CElem where
  | text (content : String)
  | bullets (content : String)
  | code (language : String) (code : String)
  | table (rows : List TableRow)
  deriving DecidableEq, Repr

/-- Flush the text accumulator:
`elements.push({type:'text', content: block.join('\n').trim()})`. -/
def flushText (tb : List String) : List CElem :=
  if tb = [] then [] else [CElem.text (jsTrim (joinNl tb))]

/-- Flush the bullet accumulator (content joined but not trimmed). -/
def flushBullets (bb : List String) : List CElem :=
  if bb = [] then [] else [CElem.bullets (joinNl bb)]

/-- The final classification loop: placeholders flush both accumulators
and emit the found element (or nothing, when the trimmed line is not an
actual generated placeholder); bullet lines flush text and accumulate;
non-blank lines flush bullets and accumulate; blank lines flush both.
At the end both accumulators are flushed (text first). -/
def finalPass (cbs : List CodeBlockRec) (tbls : List (String × List TableRow)) :
    List String → List String → List String → List CElem
  | tb, bb, [] => flushText tb ++ flushBullets bb
  | tb, bb, l :: ls =>
    if hasCodeTok l then
      flushText tb ++ flushBullets bb ++
        (match cbs.find? (fun cb => cb.placeholder = jsTrim l) with
         | some cb => [CElem.code cb.language cb.code]
         | none => []) ++ finalPass cbs tbls [] [] ls
    else if hasTableTok l then
      flushText tb ++ flushBullets bb ++
        (match tbls.find? (fun t => t.1 = jsTrim l) with
         | some t => [CElem.table t.2]
         | none => []) ++ finalPass cbs tbls [] [] ls
    else if isBulletLine l then
      flushText tb ++ finalPass cbs tbls [] (bb ++ [l]) ls
    else if jsTrim l ≠ "" then
      flushBullets bb ++ finalPass cbs tbls (tb ++ [l]) [] ls
    else
      flushText tb ++ flushBullets bb ++ finalPass cbs tbls [] [] ls

/-- `parseContentElements`: extract code blocks, extract tables, then
classify the remaining lines. -/
def parseContentElements (content : String) : List CElem :=
  let r := extractCodeBlocks content
  let t := extractTables 0 (linesOf r.1)
  finalPass r.2 t.2 [] [] t.1

/-! ## The layout flow of `addContentSlide` (source lines 528–827)

The cursor starts at `yPos = 0.9`; the capacity is `maxY = 5.0`.  Before
each element the loop breaks if `yPos >= maxY`.  Heights and gaps per
element type are exactly the source's decimal constants.  All of the
source's constants are exact multiples of `0.01`, so positions are
modelled exactly in integer hundredths of an inch (`0.9 ↦ 90`,
`5.0 ↦ 500`, `0.4 ↦ 40`, `1.2 ↦ 120`, `0.28 ↦ 28`, `0.3 ↦ 30`,
`0.15 ↦ 15`, `0.1 ↦ 10`, `0.25 ↦ 25`, `0.2 ↦ 20`, `0.05 ↦ 5`); sums,
`min`/`max` and order comparisons commute with this rescaling. -/

/-- Height and gap (in hundredths) for one element at cursor `y`, or
`none` when the element places nothing (a bullets element whose content
parses to no bullets).  Source:
bullets `min(n*0.4, maxY - y)` gap `0.15`;
text `min(1.2, maxY - y)` gap `0.1`;
code `min(max(lines*0.28, 1.2), maxY - y - 0.3)` gap `0.25`;
table `min(rows*0.4, maxY - y - 0.1)` gap `0.2`. -/
def elemPlace (e : CElem) (y : ℤ) : Option (ℤ × ℤ) :=
  match e with
  | .bullets c =>
    let n := (parseBullets c).length
    if n = 0 then none else some (min ((n : ℤ) * 40) (500 - y), 15)
  | .text _ => some (min 120 (500 - y), 10)
  | .code _ code =>
    let n := (linesOf code).length
    some (min (max ((n : ℤ) * 28) 120) (500 - y - 30), 25)
  | .table rows => some (min ((rows.length : ℤ) * 40) (500 - y - 10), 20)

/-- The layout loop: the `(y, height)` of each placed element, in
hundredths of an inch. -/
def layoutFrom (y : ℤ) : List CElem → List (ℤ × ℤ)
  | [] => []
  | e :: es =>
    if 500 ≤ y then []
    else
      match elemPlace e y with
      | none => layoutFrom y es
      | some p => (y, p.1) :: layoutFrom (y + p.1 + p.2) es

/-- The cursor position after processing a list of elements (stops
advancing once the capacity check fails, like the loop's `break`). -/
def cursorAfter (y : ℤ) : List CElem → ℤ
  | [] => y
  | e :: es =>
    if 500 ≤ y then y
    else
      match elemPlace e y with
      | none => cursorAfter y es
      | some p => cursorAfter (y + p.1 + p.2) es

/-- Test whether an element is a code element. -/
def CElem.isCode : CElem → Bool
  | .code _ _ => true
  | _ => false

/-! ## `generatePresentation` (source lines 870–910)

The function always adds a title slide built from the frontmatter, then
one slide per record (`plan` → plan slide, `divider` → divider slide,
`code`, `content` and every other type → content slide), then the
closing slide.  File writing and the `config.json` load are external
I/O; the logical slide sequence is modelled. -/

/-- One logical slide of the generated deck. -/
inductive LSlide where
  | titleSlide
  | plan (title : String) (bullets : List Bullet)
  | divider (title : String)
  | content (title : String) (elements : List CElem)
  | closing
  deriving DecidableEq, Repr

/-- The `switch (slide.type)` dispatch of the generation loop:
`plan` and `divider` have their own builders; `code`, `content` and the
`default` case all call `addContentSlide`. -/
def slideFor (s : SlideRec) : LSlide :=
  if s.type = "plan" then .plan s.title (parseBullets s.content)
  else if s.type = "divider" then .divider s.title
  else .content s.title (parseContentElements s.content)

/-- Modelled from the documented behaviour of the external `gray-matter`
library (`matter(content)`): a document whose first line is not the
delimiter `---` has no frontmatter and its body is the whole document;
otherwise the body is everything after the closing delimiter line. -/
def matterBody (s : String) : String :=
  let lines := linesOf s
  if lines.headD "" = "---" then
    joinNl (((lines.drop 1).dropWhile (fun l => l ≠ "---")).drop 1)
  else s

/-- The logical slide sequence produced by `generatePresentation`. -/
def generatePresentation (markdown : String) : List LSlide :=
  LSlide.titleSlide ::
    ((parseMarkdownBody (matterBody markdown)).map slideFor ++ [LSlide.closing])

/-! ## `fixForGoogleSlides` (source lines 274–322)

An archive is a list of entries (name, data); entry data is modelled as
a string (the source decodes XML/rels entries as UTF-8 text and passes
other entries through unchanged).  A JS `Map` is modelled as an
association list with insert-or-update-in-place semantics, which
preserves JS `Map` iteration order (first-insertion order, updates keep
the original position). -/

/-- One archive entry. -/
structure ZEntry where
  name : String
  data : String
  deriving DecidableEq, Repr

/-- JS `Map.prototype.set`. -/
def mapSet (m : List (String × String)) (k v : String) : List (String × String) :=
  if m.any (fun p => p.1 = k) then m.map (fun p => if p.1 = k then (k, v) else p)
  else m ++ [(k, v)]

/-- JS `Map.prototype.get`. -/
def mapGet (m : List (String × String)) (k : String) : Option String :=
  (m.find? (fun p => p.1 = k)).map (fun p => p.2)

/-- `path.basename`: strip trailing slashes, then take the part after
the last remaining slash. -/
def jsBasename (p : String) : String :=
  String.mk (((p.data.reverse.dropWhile (fun c => c = '/')).takeWhile
    (fun c => c ≠ '/')).reverse)

/-- `path.extname`: the suffix of the basename from its last `.`;
empty when there is no dot or the only dot is the leading character. -/
def jsExtname (p : String) : String :=
  let b := (jsBasename p).data
  let tailRun := b.reverse.takeWhile (fun c => c ≠ '.')
  if tailRun.length = b.length then ""
  else if b.length - tailRun.length - 1 = 0 then ""
  else String.mk ('.' :: tailRun.reverse)

/-- The media-entry test of the first pass:
`entry.entryName.startsWith('ppt/media/') && !entry.isDirectory`
(an `adm-zip` entry is a directory exactly when its name ends in `/`). -/
def isMediaEntry (name : String) : Bool :=
  leadsWith name "ppt/media/" && !trailsWith name "/"

/-- One step of the first pass of `fixForGoogleSlides`: the counter
increments per media entry; a media entry whose basename differs from
`image<counter><ext>` adds (or overwrites, for a repeated basename) the
mapping old basename ↦ new name. -/
def renameStep (st : List (String × String) × Nat) (e : ZEntry) :
    List (String × String) × Nat :=
  if isMediaEntry e.name then
    let oldName := jsBasename e.name
    let newName := "image" ++ toString st.2 ++ jsExtname oldName
    (if oldName ≠ newName then mapSet st.1 oldName newName else st.1, st.2 + 1)
  else st

/-- The first pass of `fixForGoogleSlides`: fold `renameStep` over the
entries in enumeration order, counter starting at 1. -/
def buildRenames (entries : List ZEntry) : List (String × String) :=
  (entries.foldl renameStep (([] : List (String × String)), 1)).1

/-- The entry-name part of the second pass: a media entry whose
basename is in the rename map moves to `ppt/media/<newName>`
(flattening any subdirectory). -/
def rewriteName (renames : List (String × String)) (name : String) : String :=
  if leadsWith name "ppt/media/" then
    match mapGet renames (jsBasename name) with
    | some newName => "ppt/media/" ++ newName
    | none => name
  else name

/-- The second pass, applied to one entry: rename the entry, and if the
(possibly renamed) entry name ends in `.xml` or `.rels`, replace every
old basename by its new name in the entry text, in map iteration
order. -/
def rewriteEntry (renames : List (String × String)) (e : ZEntry) : ZEntry :=
  ⟨rewriteName renames e.name,
   if trailsWith (rewriteName renames e.name) ".xml" ||
      trailsWith (rewriteName renames e.name) ".rels" then
     renames.foldl (fun t p => jsReplaceAll t p.1 p.2) e.data
   else e.data⟩

/-- `fixForGoogleSlides` on the entry list: if no renames are needed the
source archive is copied verbatim (fast path); otherwise every entry is
rewritten and added to the new archive in enumeration order. -/
def fixForGoogleSlides (entries : List ZEntry) : List ZEntry :=
  let renames := buildRenames entries
  if renames = [] then entries
  else entries.map (rewriteEntry renames)


/-! ## Observation helpers -/

/-- The code payload of an element, when it is a code element. -/
def codeOf : CElem → Option (String × String)
  | .code l c => some (l, c)
  | _ => none

/-- The code elements of an element list, in order. -/
def codesOf (es : List CElem) : List (String × String) := es.filterMap codeOf

/-- The code element (if any) that one line of the classification pass
emits: a line matching the code-placeholder pattern emits the found
block's language and code, and any other line emits no code element. -/
def codeLineOf (cbs : List CodeBlockRec) (l : String) : Option (String × String) :=
  if hasCodeTok l then
    (cbs.find? (fun cb => cb.placeholder = jsTrim l)).map
      (fun cb => (cb.language, cb.code))
  else none

/-- Newline-terminated join: every element followed by `'\n'`
(the shape of the region between a fence opening's newline and the
closing fence, for any number of body lines). -/
def nlTerm (xs : List (List Char)) : List Char :=
  xs.foldr (fun l acc => l ++ '\n' :: acc) []


/-! ## Helper lemmas -/

theorem length_dropWhile_le (p : α → Bool) :
    ∀ l : List α, (l.dropWhile p).length ≤ l.length
  | [] => Nat.le_refl _
  | a :: l => by
    simp only [List.dropWhile]
    split
    · exact (length_dropWhile_le p l).trans (Nat.le_succ _)
    · exact Nat.le_refl _

theorem append_drop_of_pre {p l : List Char} (h : p.isPrefixOf l) :
    l = p ++ l.drop p.length := by
  obtain ⟨t, ht⟩ := List.isPrefixOf_iff_prefix.mp h
  rw [← ht, List.drop_left]

theorem findTriple_spec : ∀ {t b a : List Char},
    findTriple t = some (b, a) → t = b ++ "```".data ++ a := by
  intro t
  induction t with
  | nil => intro b a h; simp [findTriple] at h
  | cons c cs ih =>
    intro b a h
    simp only [findTriple] at h
    split at h
    · rename_i hp
      injection h with h1
      injection h1 with hb ha
      subst hb; subst ha
      simpa using append_drop_of_pre hp
    · cases hf : findTriple cs with
      | none => rw [hf] at h; simp at h
      | some p =>
        rw [hf] at h
        simp only [Option.map_some'] at h
        injection h with h1
        cases p with
        | mk p1 p2 =>
          injection h1 with hb ha
          subst hb; subst ha
          simpa using congrArg (c :: ·) (ih hf)

theorem fenceHere_spec {cs m : List Char} {lang : String} {body rest : List Char}
    (h : fenceHere cs = some (m, lang, body, rest)) : cs = m ++ rest ∧ m ≠ [] := by
  simp only [fenceHere] at h
  split at h
  · rename_i hp
    have hcs : cs = "```".data ++ cs.drop 3 := append_drop_of_pre hp
    have hsplit : (cs.drop 3).takeWhile isWordChar ++ (cs.drop 3).dropWhile isWordChar
        = cs.drop 3 := List.takeWhile_append_dropWhile _ _
    split at h
    · rename_i t hmatch
      cases hf : findTriple t with
      | none => rw [hf] at h; simp at h
      | some p =>
        rw [hf] at h
        simp only [Option.map_some'] at h
        cases p with
        | mk p1 p2 =>
          injection h with h1
          injection h1 with hm h2
          injection h2 with hl h3
          injection h3 with hb hr
          subst hm; subst hb; subst hr
          have ht := findTriple_spec hf
          set L := (cs.drop 3).takeWhile isWordChar with hL
          have h2 : cs.drop 3 = L ++ '\r' :: '\n' :: t := by rw [← hsplit, hmatch]
          have hcs2 : cs = "```".data ++ (L ++ '\r' :: '\n' :: t) :=
            hcs.trans (congrArg _ h2)
          rw [ht] at hcs2
          refine ⟨?_, by simp⟩
          rw [hcs2]
          simp [List.append_assoc]
    · rename_i t hmatch
      cases hf : findTriple t with
      | none => rw [hf] at h; simp at h
      | some p =>
        rw [hf] at h
        simp only [Option.map_some'] at h
        cases p with
        | mk p1 p2 =>
          injection h with h1
          injection h1 with hm h2
          injection h2 with hl h3
          injection h3 with hb hr
          subst hm; subst hb; subst hr
          have ht := findTriple_spec hf
          set L := (cs.drop 3).takeWhile isWordChar with hL
          have h2 : cs.drop 3 = L ++ '\n' :: t := by rw [← hsplit, hmatch]
          have hcs2 : cs = "```".data ++ (L ++ '\n' :: t) :=
            hcs.trans (congrArg _ h2)
          rw [ht] at hcs2
          refine ⟨?_, by simp⟩
          rw [hcs2]
          simp [List.append_assoc]
    · exact absurd h (by simp)
  · exact absurd h (by simp)

theorem findFence_spec : ∀ {cs pre m : List Char} {lang : String} {body rest : List Char},
    findFence cs = some (pre, m, lang, body, rest) → cs = pre ++ m ++ rest ∧ m ≠ [] := by
  intro cs
  induction cs with
  | nil => intro pre m lang body rest h; simp [findFence] at h
  | cons c cs ih =>
    intro pre m lang body rest h
    simp only [findFence] at h
    split at h
    · rename_i r hr
      obtain ⟨m', lang', body', rest'⟩ := r
      injection h with h1
      injection h1 with hpre h2
      injection h2 with hm h3
      injection h3 with hl h4
      injection h4 with hb hrest
      subst hpre; subst hm; subst hb; subst hrest
      have := fenceHere_spec hr
      simpa using this
    · rename_i hr
      cases hf : findFence cs with
      | none => rw [hf] at h; simp at h
      | some r =>
        rw [hf] at h
        simp only [Option.map_some'] at h
        obtain ⟨pre', m', lang', body', rest'⟩ := r
        injection h with h1
        injection h1 with hpre h2
        injection h2 with hm h3
        injection h3 with hl h4
        injection h4 with hb hrest
        subst hpre; subst hm; subst hb; subst hrest
        obtain ⟨heq, hne⟩ := ih hf
        refine ⟨?_, hne⟩
        rw [heq]
        simp [List.append_assoc]

/-- Fuel adequacy: any fuel at least the input length gives the same
scan result as fuel exactly the input length. -/
theorem scanGo_eq_len : ∀ (f : Nat) (cs : List Char), cs.length ≤ f →
    scanGo f cs = scanGo cs.length cs := by
  intro f
  induction f using Nat.strong_induction_on with
  | _ f ih =>
    intro cs hf
    cases f with
    | zero =>
      have : cs = [] := List.length_eq_zero.mp (Nat.le_zero.mp hf)
      subst this
      rfl
    | succ f' =>
      cases cs with
      | nil => simp [scanGo, findFence]
      | cons c cs' =>
        simp only [List.length_cons, scanGo]
        cases hff : findFence (c :: cs') with
        | none => rfl
        | some r =>
          obtain ⟨pre, m, lang, body, rest⟩ := r
          dsimp only
          obtain ⟨heq, hne⟩ := findFence_spec hff
          have hlen : rest.length ≤ cs'.length := by
            have hm : 0 < m.length := List.length_pos.mpr hne
            have := congrArg List.length heq
            simp only [List.length_append, List.length_cons] at this
            omega
          have hf' : cs'.length ≤ f' := by
            simp only [List.length_cons] at hf
            omega
          rw [ih f' (Nat.lt_succ_self f') rest (hlen.trans hf'),
            ih cs'.length (Nat.lt_succ_of_le hf') rest hlen]

/-- The unfolding equation for `scanFences`. -/
theorem scanFences_eq (cs : List Char) :
    scanFences cs =
      match findFence cs with
      | none => []
      | some (_pre, m, lang, body, rest) => (lang, body, m) :: scanFences rest := by
  cases hff : findFence cs with
  | none =>
    cases cs with
    | nil => rfl
    | cons c cs' => simp only [scanFences, List.length_cons, scanGo, hff]
  | some r =>
    obtain ⟨pre, m, lang, body, rest⟩ := r
    obtain ⟨heq, hne⟩ := findFence_spec hff
    have hcs : cs ≠ [] := by
      intro h
      rw [h] at hff
      simp [findFence] at hff
    obtain ⟨c, cs', rfl⟩ := List.exists_cons_of_ne_nil hcs
    simp only [scanFences, List.length_cons, scanGo, hff]
    have hlen : rest.length ≤ cs'.length := by
      have : 0 < m.length := List.length_pos.mpr hne
      have := congrArg List.length heq
      simp only [List.length_append, List.length_cons] at this
      omega
    exact congrArg _ (scanGo_eq_len cs'.length rest hlen)

end PptxGen

namespace PptxGen

/-! ## C10: placeholder-lookalike lines are dropped -/

/-- C10: any input line to the classification pass that matches the
`__CODE_BLOCK_<digits>__` pattern (or, failing that, the
`__TABLE_<digits>__` pattern) but whose trimmed text is not one of the
placeholders generated during this parse is treated as a placeholder
line: both accumulators are flushed (text first), no element is emitted
for the line, and the line's text appears in no output element — the
pass continues on the remaining lines with empty accumulators. -/
theorem finalPass_lookalike_dropped
    (cbs : List CodeBlockRec) (tbls : List (String × List TableRow))
    (tb bb : List String) (l : String) (ls : List String)
    (h : (hasCodeTok l = true ∧
            cbs.find? (fun cb => cb.placeholder = jsTrim l) = none) ∨
         (hasCodeTok l = false ∧ hasTableTok l = true ∧
            tbls.find? (fun t => t.1 = jsTrim l) = none)) :
    finalPass cbs tbls tb bb (l :: ls) =
      flushText tb ++ flushBullets bb ++ finalPass cbs tbls [] [] ls := by
  rcases h with ⟨h1, h2⟩ | ⟨h1, h2, h3⟩
  · simp [finalPass, h1, h2]
  · simp [finalPass, h1, h2, h3]

/-- Witness for `finalPass_lookalike_dropped` at a concrete line
containing a literal `__CODE_BLOCK_0__` inside other text. -/
theorem finalPass_lookalike_dropped_witness :
    finalPass [] [] ["x"] [] ["ab __CODE_BLOCK_0__ cd"] =
      flushText ["x"] ++ flushBullets [] ++ finalPass [] [] [] [] [] :=
  finalPass_lookalike_dropped [] [] ["x"] [] "ab __CODE_BLOCK_0__ cd" []
    (Or.inl ⟨by decide, by decide⟩)

/-! ## C2: the two-slide end-to-end example -/

/-- C2 counterexample: the deck generated from
`"## [divider] Intro\n## [content] Facts\n- one\n- two"` has 4 logical
slides, not 3 — a title slide is always prepended before the loop. -/
theorem generatePresentation_two_slide_count_cex :
    (generatePresentation "## [divider] Intro\n## [content] Facts\n- one\n- two").length
        = 4 ∧
    ¬ (generatePresentation "## [divider] Intro\n## [content] Facts\n- one\n- two").length
        = 3 := by decide

/-- C2 amended: the two-slide document compiles to exactly 4 logical
slides — the always-prepended title slide, the divider, the content
slide, and the always-appended closing slide — and the content slide's
elements are a single bullets element whose parsed bullets are `one`
and `two`, both at level 0. -/
theorem generatePresentation_two_slide_structure :
    generatePresentation "## [divider] Intro\n## [content] Facts\n- one\n- two" =
      [LSlide.titleSlide, LSlide.divider "Intro",
       LSlide.content "Facts" [CElem.bullets "- one\n- two"], LSlide.closing] ∧
    parseBullets "- one\n- two" = [⟨"one", 0⟩, ⟨"two", 0⟩] := by decide

/-! ## C4: duplicate media basenames -/

/-- C4 counterexample: with media entries `photo.png`, `logo.png`,
`photo.png` (the third in a subdirectory), the renamed entries are
`image3.png, image2.png, image3.png` — not `image1.png, image2.png,
image3.png` as claimed: the rename map is keyed by basename, so the
second `photo.png` overwrites the first assignment. -/
theorem fixForGoogleSlides_duplicate_cex :
    (fixForGoogleSlides
      [⟨"ppt/media/photo.png", "P1"⟩, ⟨"ppt/media/logo.png", "L"⟩,
       ⟨"ppt/media/sub/photo.png", "P2"⟩,
       ⟨"ppt/slides/slide1.xml", "a photo.png b logo.png"⟩]).map ZEntry.name =
      ["ppt/media/image3.png", "ppt/media/image2.png", "ppt/media/image3.png",
       "ppt/slides/slide1.xml"] ∧
    (fixForGoogleSlides
      [⟨"ppt/media/photo.png", "P1"⟩, ⟨"ppt/media/logo.png", "L"⟩,
       ⟨"ppt/media/sub/photo.png", "P2"⟩,
       ⟨"ppt/slides/slide1.xml", "a photo.png b logo.png"⟩]).map ZEntry.name ≠
      ["ppt/media/image1.png", "ppt/media/image2.png", "ppt/media/image3.png",
       "ppt/slides/slide1.xml"] := by decide

/-- C4 amended: for the archive with media basenames `photo.png`,
`logo.png`, `photo.png` (in that enumeration order, any entry data, any
XML text), the counter assigns `image1/2/3` but the basename-keyed map
retains only the last assignment per basename, so the produced entries
are `image3.png, image2.png, image3.png` in enumeration order (a name
collision), and in every `.xml`/`.rels` entry each old basename is
replaced by its final mapped name (`photo.png ↦ image3.png`,
`logo.png ↦ image2.png`, applied in map insertion order). -/
theorem fixForGoogleSlides_duplicate_basenames (d1 d2 d3 x : String) :
    fixForGoogleSlides
      [⟨"ppt/media/photo.png", d1⟩, ⟨"ppt/media/logo.png", d2⟩,
       ⟨"ppt/media/sub/photo.png", d3⟩, ⟨"ppt/slides/slide1.xml", x⟩] =
      [⟨"ppt/media/image3.png", d1⟩, ⟨"ppt/media/image2.png", d2⟩,
       ⟨"ppt/media/image3.png", d3⟩,
       ⟨"ppt/slides/slide1.xml",
        jsReplaceAll (jsReplaceAll x "photo.png" "image3.png")
          "logo.png" "image2.png"⟩] := by
  have s1 : renameStep ([], 1) ⟨"ppt/media/photo.png", d1⟩
      = ([("photo.png", "image1.png")], 2) := by
    dsimp only [renameStep]; decide
  have s2 : renameStep ([("photo.png", "image1.png")], 2) ⟨"ppt/media/logo.png", d2⟩
      = ([("photo.png", "image1.png"), ("logo.png", "image2.png")], 3) := by
    dsimp only [renameStep]; decide
  have s3 : renameStep ([("photo.png", "image1.png"), ("logo.png", "image2.png")], 3)
      ⟨"ppt/media/sub/photo.png", d3⟩
      = ([("photo.png", "image3.png"), ("logo.png", "image2.png")], 4) := by
    dsimp only [renameStep]; decide
  have s4 : renameStep ([("photo.png", "image3.png"), ("logo.png", "image2.png")], 4)
      ⟨"ppt/slides/slide1.xml", x⟩
      = ([("photo.png", "image3.png"), ("logo.png", "image2.png")], 4) := by
    dsimp only [renameStep]; decide
  have hren : buildRenames
      [⟨"ppt/media/photo.png", d1⟩, ⟨"ppt/media/logo.png", d2⟩,
       ⟨"ppt/media/sub/photo.png", d3⟩, ⟨"ppt/slides/slide1.xml", x⟩] =
      [("photo.png", "image3.png"), ("logo.png", "image2.png")] := by
    simp only [buildRenames, List.foldl_cons, List.foldl_nil, s1, s2, s3, s4]
  have n1 : rewriteName [("photo.png", "image3.png"), ("logo.png", "image2.png")]
      "ppt/media/photo.png" = "ppt/media/image3.png" := by decide
  have n2 : rewriteName [("photo.png", "image3.png"), ("logo.png", "image2.png")]
      "ppt/media/logo.png" = "ppt/media/image2.png" := by decide
  have n3 : rewriteName [("photo.png", "image3.png"), ("logo.png", "image2.png")]
      "ppt/media/sub/photo.png" = "ppt/media/image3.png" := by decide
  have n4 : rewriteName [("photo.png", "image3.png"), ("logo.png", "image2.png")]
      "ppt/slides/slide1.xml" = "ppt/slides/slide1.xml" := by decide
  have c1 : (trailsWith "ppt/media/image3.png" ".xml" ||
      trailsWith "ppt/media/image3.png" ".rels") = false := by decide
  have c2 : (trailsWith "ppt/media/image2.png" ".xml" ||
      trailsWith "ppt/media/image2.png" ".rels") = false := by decide
  have c4 : (trailsWith "ppt/slides/slide1.xml" ".xml" ||
      trailsWith "ppt/slides/slide1.xml" ".rels") = true := by decide
  have hne : ([("photo.png", "image3.png"), ("logo.png", "image2.png")] :
      List (String × String)) ≠ [] := by decide
  simp only [fixForGoogleSlides, hren, if_neg hne, List.map_cons, List.map_nil,
    rewriteEntry, n1, n2, n3, n4, c1, c2, c4, Bool.false_eq_true, if_false, if_true,
    List.foldl_cons, List.foldl_nil]

/-! ## C9: unknown and missing type tags -/

/-- C9 counterexample: a slide with the unrecognized tag `[note]` gets
record type `"note"`, not `"content"` — `parseMarkdown` stores the
lowercased tag verbatim. -/
theorem parseMarkdown_unknown_tag_cex :
    (parseMarkdownBody "## [note] Custom").map SlideRec.type = ["note"] ∧
    ("note" : String) ≠ "content" := by decide

/-- C9 amended: a header with no bracketed tag yields record type
`content`; a header with a bracketed tag stores the lowercased tag
verbatim, even when unrecognized (e.g. `[note]` gives `"note"`); the
fallback to the content slide happens at dispatch — every record type
other than `plan` and `divider` (including `code` and all unknown
types) is rendered by the content-slide builder. -/
theorem slide_type_fallback :
    (∀ sec : String, headerMatch ((linesOf (jsTrim sec)).headD "") = none →
      (mkSlide sec).type = "content") ∧
    (∀ s : SlideRec, s.type ≠ "plan" → s.type ≠ "divider" →
      slideFor s = LSlide.content s.title (parseContentElements s.content)) ∧
    (mkSlide "[note] Custom").type = "note" := by
  refine ⟨?_, ?_, by decide⟩
  · intro sec h
    simp only [mkSlide]
    rw [h]
  · intro s h1 h2
    simp [slideFor, h1, h2]

/-- Witness for `slide_type_fallback` at concrete inputs. -/
theorem slide_type_fallback_witness :
    (mkSlide "plain title").type = "content" ∧
    slideFor ⟨"note", "T", "- c"⟩ = LSlide.content "T" (parseContentElements "- c") ∧
    (mkSlide "[note] Custom").type = "note" :=
  ⟨slide_type_fallback.1 "plain title" (by decide),
   slide_type_fallback.2.1 ⟨"note", "T", "- c"⟩ (by decide) (by decide),
   slide_type_fallback.2.2⟩

/-! ## C3: the layout flow of `addContentSlide` -/

theorem layoutFrom_stop {y : ℤ} (es : List CElem) (h : 500 ≤ y) :
    layoutFrom y es = [] := by
  cases es with
  | nil => rfl
  | cons e es => simp [layoutFrom, h]

theorem layout_take : ∀ (es : List CElem) (i : Nat) (y : ℤ),
    500 ≤ cursorAfter y (es.take i) → layoutFrom y es = layoutFrom y (es.take i) := by
  intro es
  induction es with
  | nil => intro i y _; simp
  | cons e es ih =>
    intro i y h
    cases i with
    | zero =>
      simp only [List.take_zero, cursorAfter] at h ⊢
      rw [layoutFrom_stop _ h]
      rfl
    | succ j =>
      simp only [List.take_succ_cons] at h ⊢
      by_cases hy : (500 : ℤ) ≤ y
      · rw [layoutFrom_stop _ hy, layoutFrom_stop _ hy]
      · simp only [cursorAfter, if_neg hy] at h
        simp only [layoutFrom, if_neg hy]
        cases hp : elemPlace e y with
        | none =>
          rw [hp] at h
          simp only []
          exact ih j y h
        | some p =>
          rw [hp] at h
          simp only []
          rw [ih j (y + p.1 + p.2) h]

theorem elemPlace_advance_pos {e : CElem} {y h g : ℤ}
    (hc : e.isCode = false) (hy : ¬ (500 : ℤ) ≤ y)
    (hp : elemPlace e y = some (h, g)) : 0 < h + g := by
  cases e with
  | bullets c =>
    simp only [elemPlace] at hp
    by_cases hn : (parseBullets c).length = 0
    · rw [if_pos hn] at hp; exact absurd hp (by simp)
    · rw [if_neg hn] at hp
      injection hp with hp'
      injection hp' with h1 h2
      subst h1; subst h2
      have hn1 : 1 ≤ ((parseBullets c).length : ℤ) := by
        have : 1 ≤ (parseBullets c).length := Nat.one_le_iff_ne_zero.mpr hn
        exact_mod_cast this
      rcases le_total (((parseBullets c).length : ℤ) * 40) (500 - y) with hle | hle
      · rw [min_eq_left hle]; omega
      · rw [min_eq_right hle]; omega
  | text c =>
    simp only [elemPlace] at hp
    injection hp with hp'
    injection hp' with h1 h2
    subst h1; subst h2
    rcases le_total (120 : ℤ) (500 - y) with hle | hle
    · rw [min_eq_left hle]; omega
    · rw [min_eq_right hle]; omega
  | code lang c => simp [CElem.isCode] at hc
  | table rows =>
    simp only [elemPlace] at hp
    injection hp with hp'
    injection hp' with h1 h2
    subst h1; subst h2
    have hr : 0 ≤ ((rows.length : ℤ) * 40) := by positivity
    rcases le_total ((rows.length : ℤ) * 40) (500 - y - 10) with hle | hle
    · rw [min_eq_left hle]; omega
    · rw [min_eq_right hle]; omega

theorem layout_mono : ∀ (es : List CElem) (y : ℤ),
    (∀ e ∈ es, e.isCode = false) →
    List.Chain' (fun p q : ℤ × ℤ => p.1 < q.1) (layoutFrom y es) ∧
    ∀ p ∈ layoutFrom y es, y ≤ p.1 := by
  intro es
  induction es with
  | nil => intro y _; simp [layoutFrom]
  | cons e es ih =>
    intro y h
    by_cases hy : (500 : ℤ) ≤ y
    · rw [layoutFrom_stop _ hy]; simp
    · simp only [layoutFrom, if_neg hy]
      cases hp : elemPlace e y with
      | none => exact ih y (fun x hx => h x (List.mem_cons_of_mem e hx))
      | some p =>
        obtain ⟨hh, hg⟩ := p
        have hpos : 0 < hh + hg :=
          elemPlace_advance_pos (h e (List.mem_cons_self e es)) hy hp
        have hrec := ih (y + hh + hg) (fun x hx => h x (List.mem_cons_of_mem e hx))
        constructor
        · rw [List.chain'_cons']
          refine ⟨?_, hrec.1⟩
          intro q hq
          have hmem : q ∈ layoutFrom (y + hh + hg) es := by
            cases hl : layoutFrom (y + hh + hg) es with
            | nil => rw [hl] at hq; simp at hq
            | cons a l =>
              rw [hl] at hq
              simp only [List.head?_cons, Option.mem_some_iff] at hq
              rw [← hq]
              exact List.mem_cons_self a l
          have := hrec.2 q hmem
          simp only []
          omega
        · intro q hq
          rcases List.mem_cons.mp hq with h1 | h1
          · rw [h1]
          · have := hrec.2 q h1
            omega

/-- C3 counterexample: a slide of five elements (a 7-line code block,
text, a one-bullet list, code, text).  The fourth element is reached at
`yPos = 4.96 < 5.0` and would push past capacity, yet it is placed (all
5 elements are placed), and the placed positions
`0.9, 3.11, 4.41, 4.96, 4.95` are not strictly increasing — a code
element placed near capacity advances the cursor backwards. -/
theorem layout_flow_cex :
    layoutFrom 90
      [CElem.code "t" "a\nb\nc\nd\ne\nf\ng", CElem.text "a", CElem.bullets "- x",
       CElem.code "t" "z", CElem.text "b"] =
      [(90, 196), (311, 120), (441, 40), (496, -26), (495, 5)] ∧
    ¬ List.Chain' (fun p q : ℤ × ℤ => p.1 < q.1)
      (layoutFrom 90
        [CElem.code "t" "a\nb\nc\nd\ne\nf\ng", CElem.text "a", CElem.bullets "- x",
         CElem.code "t" "z", CElem.text "b"]) := by
  have h1 : layoutFrom 90
      [CElem.code "t" "a\nb\nc\nd\ne\nf\ng", CElem.text "a", CElem.bullets "- x",
       CElem.code "t" "z", CElem.text "b"] =
      [(90, 196), (311, 120), (441, 40), (496, -26), (495, 5)] := by decide
  refine ⟨h1, ?_⟩
  rw [h1]
  intro h
  simp only [List.chain'_cons, List.chain'_singleton, and_true] at h
  omega

/-- C3 amended: elements are processed in order from the fixed top
offset `yPos = 0.9` (90 hundredths) with capacity `maxY = 5.0` (500);
whenever the cursor has reached the capacity after some prefix of the
elements, every remaining element is omitted (the placements equal
those of the prefix alone) — an element is omitted exactly when it is
reached with `yPos ≥ maxY`, not when it merely "would push past"; and
for a slide containing no code element, the placed elements sit at
strictly increasing `yPos` (code elements placed within 0.05 of
capacity can move the cursor backwards, so strictness can fail for
them). -/
theorem layout_flow_spec (es : List CElem) (i : Nat) :
    (500 ≤ cursorAfter 90 (es.take i) →
      layoutFrom 90 es = layoutFrom 90 (es.take i)) ∧
    ((∀ e ∈ es, e.isCode = false) →
      List.Chain' (fun p q : ℤ × ℤ => p.1 < q.1) (layoutFrom 90 es)) :=
  ⟨fun h => layout_take es i 90 h, fun h => (layout_mono es 90 h).1⟩

/-- Witness for `layout_flow_spec`: five text elements; the fifth is
reached with the cursor at 5.10 ≥ 5.0 and is omitted, and the first
four placements strictly increase. -/
theorem layout_flow_spec_witness :
    (layoutFrom 90
        [CElem.text "a", CElem.text "b", CElem.text "c", CElem.text "d",
         CElem.text "e"] =
      layoutFrom 90
        ([CElem.text "a", CElem.text "b", CElem.text "c", CElem.text "d",
          CElem.text "e"].take 4)) ∧
    List.Chain' (fun p q : ℤ × ℤ => p.1 < q.1)
      (layoutFrom 90
        [CElem.text "a", CElem.text "b", CElem.text "c", CElem.text "d",
         CElem.text "e"]) :=
  ⟨(layout_flow_spec
      [CElem.text "a", CElem.text "b", CElem.text "c", CElem.text "d",
       CElem.text "e"] 4).1 (by decide),
   (layout_flow_spec
      [CElem.text "a", CElem.text "b", CElem.text "c", CElem.text "d",
       CElem.text "e"] 4).2 (by decide)⟩

/-! ## C6: a lone pipe-delimited line -/

theorem startsPipe_of_pipeDelim {l : String} (h : pipeDelim l = true) :
    startsPipe l = true := by
  simp only [pipeDelim, Bool.and_eq_true] at h
  simp only [startsPipe]
  exact h.1

theorem getLast?_cons_of_ne_nil {α : Type} {q : α} {pr : List α} (h : pr ≠ []) :
    (q :: pr).getLast? = pr.getLast? := by
  cases pr with
  | nil => exact absurd rfl h
  | cons a l => simp

theorem extractAux_nil (k : Nat) (acc : List String) :
    extractAux k acc [] =
      if 2 ≤ acc.length ∧ tableRowsOf acc ≠ [] then
        ([tablePH k], [(tablePH k, tableRowsOf acc)])
      else ([], []) := rfl

theorem extractAux_cons_start {l : String} (k : Nat) (ls : List String)
    (h : pipeDelim l = true) :
    extractAux k [] (l :: ls) = extractAux k [l] ls := by
  rw [extractAux, if_pos rfl, if_pos h]

theorem extractAux_cons_plain {l : String} (k : Nat) (ls : List String)
    (h : pipeDelim l = false) :
    extractAux k [] (l :: ls) =
      (l :: (extractAux k [] ls).1, (extractAux k [] ls).2) := by
  rw [extractAux, if_pos rfl, if_neg (by simp [h])]

theorem extractAux_cons_cont {acc : List String} {l : String} (k : Nat)
    (ls : List String) (ha : acc ≠ []) (h : startsPipe l = true) :
    extractAux k acc (l :: ls) = extractAux k (acc ++ [l]) ls := by
  rw [extractAux, if_neg ha, if_pos h]

theorem extractAux_cons_close_emit {acc : List String} {l : String} (k : Nat)
    (ls : List String) (ha : acc ≠ []) (h : startsPipe l = false)
    (hc : 2 ≤ acc.length ∧ tableRowsOf acc ≠ []) :
    extractAux k acc (l :: ls) =
      (tablePH k :: l :: (extractAux (k + 1) [] ls).1,
       (tablePH k, tableRowsOf acc) :: (extractAux (k + 1) [] ls).2) := by
  rw [extractAux, if_neg ha, if_neg (by simp [h]), if_pos hc]

theorem extractAux_cons_close_drop {acc : List String} {l : String} (k : Nat)
    (ls : List String) (ha : acc ≠ []) (h : startsPipe l = false)
    (hc : ¬ (2 ≤ acc.length ∧ tableRowsOf acc ≠ [])) :
    extractAux k acc (l :: ls) =
      (l :: (extractAux k [] ls).1, (extractAux k [] ls).2) := by
  rw [extractAux, if_neg ha, if_neg (by simp [h]), if_neg hc]

theorem extractAux_lone_pipe :
    ∀ (pre : List String) (k : Nat) (acc : List String) (l : String)
      (post : List String),
      pipeDelim l = true →
      (∀ x, post.head? = some x → startsPipe x = false) →
      (pre = [] → acc = []) →
      (∀ x, pre.getLast? = some x → startsPipe x = false) →
      extractAux k acc (pre ++ l :: post) = extractAux k acc (pre ++ post) := by
  intro pre
  induction pre with
  | nil =>
    intro k acc l post hl hpost hacc _
    have hacc' : acc = [] := hacc rfl
    subst hacc'
    simp only [List.nil_append]
    rw [extractAux_cons_start k post hl]
    cases post with
    | nil =>
      rw [extractAux_nil, extractAux_nil]
      rw [if_neg (fun hcon => absurd hcon.1 (by simp)),
        if_neg (fun hcon => absurd hcon.1 (by simp))]
    | cons p ps =>
      have hp : startsPipe p = false := hpost p rfl
      have hpd : pipeDelim p = false := by
        cases hpdc : pipeDelim p
        · rfl
        · rw [startsPipe_of_pipeDelim hpdc] at hp
          exact absurd hp (by simp)
      rw [extractAux_cons_close_drop k ps (by simp) hp
          (fun hcon => absurd hcon.1 (by simp)),
        extractAux_cons_plain k ps hpd]
  | cons q pr ih =>
    intro k acc l post hl hpost _ hlast
    by_cases hacc : acc = []
    · subst hacc
      by_cases hq : pipeDelim q = true
      · have hpr : pr ≠ [] := by
          intro hcon
          subst hcon
          have := hlast q rfl
          rw [startsPipe_of_pipeDelim hq] at this
          exact absurd this (by simp)
        simp only [List.cons_append]
        rw [extractAux_cons_start k _ hq, extractAux_cons_start k _ hq]
        exact ih k [q] l post hl hpost (fun h => absurd h hpr)
          (fun x hx => hlast x (by rw [getLast?_cons_of_ne_nil hpr]; exact hx))
      · have hq' : pipeDelim q = false := by
          cases hqc : pipeDelim q
          · rfl
          · exact absurd hqc hq
        have hrec : extractAux k [] (pr ++ l :: post) = extractAux k [] (pr ++ post) := by
          by_cases hpr : pr = []
          · subst hpr
            exact ih k [] l post hl hpost (fun _ => rfl) (fun x hx => by simp at hx)
          · exact ih k [] l post hl hpost (fun h => absurd h hpr)
              (fun x hx => hlast x (by rw [getLast?_cons_of_ne_nil hpr]; exact hx))
        simp only [List.cons_append]
        rw [extractAux_cons_plain k _ hq', extractAux_cons_plain k _ hq', hrec]
    · by_cases hq : startsPipe q = true
      · have hpr : pr ≠ [] := by
          intro hcon
          subst hcon
          have := hlast q rfl
          rw [hq] at this
          exact absurd this (by simp)
        simp only [List.cons_append]
        rw [extractAux_cons_cont k _ hacc hq, extractAux_cons_cont k _ hacc hq]
        exact ih k (acc ++ [q]) l post hl hpost (fun h => absurd h hpr)
          (fun x hx => hlast x (by rw [getLast?_cons_of_ne_nil hpr]; exact hx))
      · have hq' : startsPipe q = false := by
          cases hqc : startsPipe q
          · rfl
          · exact absurd hqc hq
        have hrec : ∀ (k' : Nat),
            extractAux k' [] (pr ++ l :: post) = extractAux k' [] (pr ++ post) := by
          intro k'
          by_cases hpr : pr = []
          · subst hpr
            exact ih k' [] l post hl hpost (fun _ => rfl) (fun x hx => by simp at hx)
          · exact ih k' [] l post hl hpost (fun h => absurd h hpr)
              (fun x hx => hlast x (by rw [getLast?_cons_of_ne_nil hpr]; exact hx))
        simp only [List.cons_append]
        by_cases hclose : 2 ≤ acc.length ∧ tableRowsOf acc ≠ []
        · rw [extractAux_cons_close_emit k _ hacc hq' hclose,
            extractAux_cons_close_emit k _ hacc hq' hclose, hrec (k + 1)]
        · rw [extractAux_cons_close_drop k _ hacc hq' hclose,
            extractAux_cons_close_drop k _ hacc hq' hclose, hrec k]

/-- C6 counterexample: in the slide body `"hello\n| a |\nworld"` the
lone pipe-delimited line is not classified as a table, but it does not
fall through to Text either — it is removed from the working content,
and the single Text element `"hello\nworld"` does not contain it. -/
theorem lone_pipe_dropped_cex :
    parseContentElements "hello\n| a |\nworld" = [CElem.text "hello\nworld"] ∧
    hasSeq "| a |".data "hello\nworld".data = false := by decide

/-- C6 amended: a single pipe-delimited line (its trim starts and ends
with `|`) with no adjacent pipe-starting line is never classified as a
table — but it does not fall through to Text: the table-extraction pass
consumes and drops it, so extraction behaves exactly as if the line
were deleted from the input (same rewritten lines, same tables, same
numbering). -/
theorem extract_lone_pipe (k : Nat) (pre post : List String) (l : String)
    (hl : pipeDelim l = true)
    (hpre : ∀ x, pre.getLast? = some x → startsPipe x = false)
    (hpost : ∀ x, post.head? = some x → startsPipe x = false) :
    extractTables k (pre ++ l :: post) = extractTables k (pre ++ post) :=
  extractAux_lone_pipe pre k [] l post hl hpost (fun _ => rfl) hpre

/-- Witness for `extract_lone_pipe` at the concrete lines of the
counterexample body. -/
theorem extract_lone_pipe_witness :
    extractTables 0 (["hello"] ++ "| a |" :: ["world"]) =
      extractTables 0 (["hello"] ++ ["world"]) := by
  refine extract_lone_pipe 0 ["hello"] ["world"] "| a |" (by decide) ?_ ?_
  · intro x hx
    injection hx with h
    subst h
    decide
  · intro x hx
    injection hx with h
    subst h
    decide

/-! ## C8: the verbatim-copy fast path -/

theorem buildFold_no_renames :
    ∀ (es : List ZEntry) (m : List (String × String)) (c : Nat),
      (∀ k e, (es.filter (fun e => isMediaEntry e.name)).get? k = some e →
        jsBasename e.name = "image" ++ toString (c + k) ++ jsExtname (jsBasename e.name)) →
      (es.foldl renameStep (m, c)).1 = m := by
  intro es
  induction es with
  | nil => intro m c _; rfl
  | cons e es ih =>
    intro m c h
    by_cases hm : isMediaEntry e.name = true
    · have hfilter : (e :: es).filter (fun e => isMediaEntry e.name)
          = e :: es.filter (fun e => isMediaEntry e.name) := by
        simp [List.filter, hm]
      have h0 := h 0 e (by rw [hfilter]; rfl)
      simp only [Nat.add_zero] at h0
      have hstep : renameStep (m, c) e = (m, c + 1) := by
        simp only [renameStep, hm, if_true]
        rw [← h0]
        simp
      simp only [List.foldl_cons, hstep]
      refine ih m (c + 1) ?_
      intro k e' hk
      have := h (k + 1) e' (by rw [hfilter]; simpa using hk)
      simpa [Nat.add_comm, Nat.add_assoc, Nat.add_left_comm] using this
    · have hm' : isMediaEntry e.name = false := by
        revert hm; cases isMediaEntry e.name <;> simp
      have hfilter : (e :: es).filter (fun e => isMediaEntry e.name)
          = es.filter (fun e => isMediaEntry e.name) := by
        simp [List.filter, hm']
      have hstep : renameStep (m, c) e = (m, c) := by
        simp [renameStep, hm']
      simp only [List.foldl_cons, hstep]
      exact ih m c (fun k e' hk => h k e' (by rw [hfilter]; exact hk))

/-- C8: when every media entry already carries its assigned sequential
name (the k-th media entry, 1-based, is named `image<k><ext>`), no
rename is recorded and `fixForGoogleSlides` takes the fast path: the
output archive is the input archive, verbatim. -/
theorem fixForGoogleSlides_fast_path (entries : List ZEntry)
    (h : ∀ k e, (entries.filter (fun e => isMediaEntry e.name)).get? k = some e →
      jsBasename e.name = "image" ++ toString (k + 1) ++ jsExtname (jsBasename e.name)) :
    fixForGoogleSlides entries = entries := by
  have hempty : buildRenames entries = [] := by
    unfold buildRenames
    exact buildFold_no_renames entries [] 1
      (fun k e hk => by simpa [Nat.add_comm] using h k e hk)
  simp [fixForGoogleSlides, hempty]

/-! ## C1: record count of `parseMarkdown` -/

theorem splitAtHeaders_count : ∀ ls : List String,
    (splitAtHeaders ls).2.length = (ls.filter (fun l => leadsWith l "## ")).length := by
  intro ls
  induction ls with
  | nil => rfl
  | cons l ls ih =>
    simp only [splitAtHeaders, List.filter_cons]
    by_cases h : leadsWith l "## " = true
    · simp [h, ih]
    · have h' : leadsWith l "## " = false := by revert h; cases leadsWith l "## " <;> simp
      simp [h', ih]

/-- C1 counterexample: a document whose body has non-blank text before
its single `## ` header line produces 2 records, not 1 — the leading
chunk survives the blank filter and becomes a record of its own. -/
theorem parseMarkdown_preheader_cex :
    ((linesOf "hello\n## [content] A\nbody").filter
        (fun l => leadsWith l "## ")).length = 1 ∧
    (parseMarkdownBody "hello\n## [content] A\nbody").length = 2 := by decide

/-- C1 amended: `parseMarkdown` returns the records of the non-blank
sections, in document order: an extra leading record when non-blank
text precedes the first header, then one record per header line whose
section (header remainder plus body) is not entirely whitespace; the
header chunks are in bijection with the lines starting with `"## "`. -/
theorem parseMarkdown_record_structure (body : String) :
    parseMarkdownBody body =
      (if jsTrim (joinNl (splitAtHeaders (linesOf body)).1) ≠ "" then
        [mkSlide (joinNl (splitAtHeaders (linesOf body)).1)]
      else []) ++
      ((((splitAtHeaders (linesOf body)).2.map joinNl).filter
        (fun s => jsTrim s ≠ "")).map mkSlide) ∧
    (splitAtHeaders (linesOf body)).2.length =
      ((linesOf body).filter (fun l => leadsWith l "## ")).length := by
  constructor
  · unfold parseMarkdownBody sectionsOf
    by_cases hp : jsTrim (joinNl (splitAtHeaders (linesOf body)).1) ≠ ""
    · simp [List.filter_cons, hp]
    · simp [List.filter_cons, hp]
  · exact splitAtHeaders_count _

/-! ## C5: table rows and header flags -/

theorem tableRowsAux_cells : ∀ (hdr : Bool) (ls : List String),
    (tableRowsAux hdr ls).map TableRow.cells =
      (ls.filter (fun l => !isSepLine l && !(rowCells l).isEmpty)).map rowCells := by
  intro hdr ls
  induction ls generalizing hdr with
  | nil => rfl
  | cons l ls ih =>
    simp only [tableRowsAux, List.filter_cons]
    by_cases hs : isSepLine l = true
    · simp [hs, ih]
    · have hs' : isSepLine l = false := by revert hs; cases isSepLine l <;> simp
      by_cases hc : rowCells l ≠ []
      · have : (rowCells l).isEmpty = false := by
          revert hc; cases rowCells l <;> simp
        simp [hs', hc, this, ih]
      · have hcc : rowCells l = [] := by revert hc; by_cases rowCells l = [] <;> simp_all
        have : (rowCells l).isEmpty = true := by rw [hcc]; rfl
        simp [hs', hcc, this, ih]

theorem tableRowsAux_false_flags : ∀ (ls : List String),
    ∀ r ∈ tableRowsAux false ls, r.isHeader = false := by
  intro ls
  induction ls with
  | nil => intro r hr; simp [tableRowsAux] at hr
  | cons l ls ih =>
    intro r hr
    simp only [tableRowsAux] at hr
    by_cases hs : isSepLine l = true
    · rw [if_pos hs] at hr; exact ih r hr
    · rw [if_neg hs] at hr
      by_cases hc : rowCells l ≠ []
      · rw [if_pos hc] at hr
        rcases List.mem_cons.mp hr with h | h
        · rw [h]
        · exact ih r h
      · rw [if_neg hc] at hr; exact ih r hr

theorem tableRowsAux_tail_flags : ∀ (hdr : Bool) (ls : List String),
    ∀ r ∈ (tableRowsAux hdr ls).drop 1, r.isHeader = false := by
  intro hdr ls
  induction ls generalizing hdr with
  | nil => intro r hr; simp [tableRowsAux] at hr
  | cons l ls ih =>
    intro r hr
    simp only [tableRowsAux] at hr
    by_cases hs : isSepLine l = true
    · rw [if_pos hs] at hr
      exact tableRowsAux_false_flags ls r (List.mem_of_mem_drop hr)
    · rw [if_neg hs] at hr
      by_cases hc : rowCells l ≠ []
      · rw [if_pos hc] at hr
        simp only [List.drop_one, List.tail_cons] at hr
        exact tableRowsAux_false_flags ls r hr
      · rw [if_neg hc] at hr; exact ih hdr r hr

theorem tableRowsAux_head_of_no_sep : ∀ (ls : List String),
    (∀ l ∈ ls, isSepLine l = false) →
    ∀ r, (tableRowsAux true ls).head? = some r → r.isHeader = true := by
  intro ls
  induction ls with
  | nil => intro _ r hr; simp [tableRowsAux] at hr
  | cons l ls ih =>
    intro hsep r hr
    simp only [tableRowsAux] at hr
    rw [if_neg (by simp [hsep l (List.mem_cons_self l ls)])] at hr
    by_cases hc : rowCells l ≠ []
    · rw [if_pos hc] at hr
      injection hr with h1
      rw [← h1]
    · rw [if_neg hc] at hr
      exact ih (fun x hx => hsep x (List.mem_cons_of_mem l hx)) r hr

/-- C5 counterexample: in the block `["| a |", "| b |", "| --- |"]` the
row `b` sits before the separator but gets `isHeader = false` (only the
first emitted row is flagged); and in the separator-free block
`["| a |", "| b |"]` the first row still gets `isHeader = true`. -/
theorem table_rows_cex :
    tableRowsOf ["| a |", "| b |", "| --- |"] =
      [⟨["a"], true⟩, ⟨["b"], false⟩] ∧
    tableRowsOf ["| a |", "| b |"] = [⟨["a"], true⟩, ⟨["b"], false⟩] := by decide

/-- C5 amended: in every table block, a row matching the separator
pattern is consumed and never emitted as a TableRow (the emitted cells
are exactly those of the non-separator lines with at least one cell, in
order); every emitted row after the first has `isHeader = false`; and
when the block contains no separator row at all, the first emitted row
(if any) still has `isHeader = true`. -/
theorem table_rows_spec (ls : List String) :
    (tableRowsOf ls).map TableRow.cells =
      (ls.filter (fun l => !isSepLine l && !(rowCells l).isEmpty)).map rowCells ∧
    (∀ r ∈ (tableRowsOf ls).drop 1, r.isHeader = false) ∧
    ((∀ l ∈ ls, isSepLine l = false) →
      ∀ r, (tableRowsOf ls).head? = some r → r.isHeader = true) :=
  ⟨tableRowsAux_cells true ls, tableRowsAux_tail_flags true ls,
   tableRowsAux_head_of_no_sep ls⟩

/-- Witness for `table_rows_spec` on the separator-free block
`["| a |", "| b |"]`. -/
theorem table_rows_spec_witness :
    TableRow.isHeader ⟨["a"], true⟩ = true ∧
    (tableRowsOf ["| a |", "| b |"]).head? = some ⟨["a"], true⟩ :=
  ⟨(table_rows_spec ["| a |", "| b |"]).2.2 (by decide) ⟨["a"], true⟩ (by decide),
   by decide⟩

/-- Witness for `fixForGoogleSlides_fast_path` on a concrete archive
whose single media entry is already named `image1.png`. -/
theorem fixForGoogleSlides_fast_path_witness :
    fixForGoogleSlides [⟨"ppt/media/image1.png", "B"⟩, ⟨"ppt/slides/s1.xml", "x"⟩] =
      [⟨"ppt/media/image1.png", "B"⟩, ⟨"ppt/slides/s1.xml", "x"⟩] :=
  fixForGoogleSlides_fast_path _ (by
    intro k e hk
    have hf : (([⟨"ppt/media/image1.png", "B"⟩, ⟨"ppt/slides/s1.xml", "x"⟩] :
        List ZEntry).filter (fun e => isMediaEntry e.name))
        = [⟨"ppt/media/image1.png", "B"⟩] := by decide
    rw [hf] at hk
    cases k with
    | zero =>
      injection hk with h1
      subst h1
      decide
    | succ k => simp [List.get?] at hk)

/-! ## C7: character-level lemmas for the fence scanner -/

theorem isPre_append_of_le : ∀ (p a b : List Char), p.length ≤ a.length →
    p.isPrefixOf (a ++ b) = p.isPrefixOf a := by
  intro p
  induction p with
  | nil => intro a b _; simp [List.isPrefixOf]
  | cons x p ih =>
    intro a b h
    cases a with
    | nil => simp at h
    | cons y a =>
      simp only [List.cons_append, List.isPrefixOf]
      rw [show (a.append b) = a ++ b from rfl, ih a b (by simpa using h)]

theorem pre_extend {p a : List Char} (b : List Char)
    (h : p.isPrefixOf a = true) : p.isPrefixOf (a ++ b) = true := by
  rw [List.isPrefixOf_iff_prefix] at h ⊢
  exact h.trans (List.prefix_append a b)

theorem nl_kill (a b : List Char) (ha : a.length ≤ 2) :
    "```".data.isPrefixOf (a ++ '\n' :: b) = false := by
  cases hp : "```".data.isPrefixOf (a ++ '\n' :: b) with
  | false => rfl
  | true =>
    exfalso
    obtain ⟨t, ht⟩ := List.isPrefixOf_iff_prefix.mp hp
    have h1 : ("```".data ++ t).get? a.length = some '\n' := by
      rw [ht, List.get?_append_right (Nat.le_refl _)]
      simp
    rw [List.get?_append (lt_of_le_of_lt ha (by decide))] at h1
    have : a.length = 0 ∨ a.length = 1 ∨ a.length = 2 := by omega
    rcases this with h | h | h <;> rw [h] at h1 <;> exact absurd h1 (by decide)

theorem triple_kill (a b : List Char)
    (h : "```".data.isPrefixOf a = false) :
    "```".data.isPrefixOf (a ++ '\n' :: b) = false := by
  by_cases hl : 3 ≤ a.length
  · rw [isPre_append_of_le _ _ _ (by rw [(by decide : "```".data.length = 3)]; exact hl)]
    exact h
  · exact nl_kill a b (by omega)

theorem triple_kill_snoc (a b : List Char)
    (h1 : "```".data.isPrefixOf a = false) (h2 : a.getLast? = some '\n') :
    "```".data.isPrefixOf (a ++ b) = false := by
  have hne : a ≠ [] := by intro h; rw [h] at h2; simp at h2
  have ha : a = a.dropLast ++ ['\n'] := by
    have hg : a.getLast hne = '\n' := by
      have := List.getLast?_eq_getLast a hne
      rw [this] at h2
      exact Option.some.inj h2
    conv_lhs => rw [← List.dropLast_append_getLast hne, hg]
  have hinit : "```".data.isPrefixOf a.dropLast = false := by
    cases hc : "```".data.isPrefixOf a.dropLast with
    | false => rfl
    | true =>
      exfalso
      have := pre_extend (b := ['\n']) hc
      rw [← ha] at this
      rw [this] at h1
      exact absurd h1 (by simp)
  calc "```".data.isPrefixOf (a ++ b)
      = "```".data.isPrefixOf (a.dropLast ++ '\n' :: b) := by
        conv_lhs => rw [ha]
        rw [List.append_assoc]
        rfl
    _ = false := triple_kill _ _ hinit

theorem hasSeq_join_nl {a b : List Char}
    (ha : hasSeq "```".data a = false) (hb : hasSeq "```".data b = false) :
    hasSeq "```".data (a ++ '\n' :: b) = false := by
  induction a with
  | nil =>
    simp only [List.nil_append, hasSeq]
    rw [(by rfl : "```".data.isPrefixOf ('\n' :: b) = false), hb]
    rfl
  | cons x a ih =>
    simp only [hasSeq, Bool.or_eq_false_iff] at ha
    simp only [List.cons_append, hasSeq, Bool.or_eq_false_iff]
    refine ⟨?_, ih ha.2⟩
    exact triple_kill (x :: a) b ha.1

theorem nlTerm_append (xs ys : List (List Char)) :
    nlTerm (xs ++ ys) = nlTerm xs ++ nlTerm ys := by
  induction xs with
  | nil => rfl
  | cons l xs ih => simp [nlTerm, List.foldr_cons] at ih ⊢; rw [ih]

theorem nlTerm_eq_join_snoc : ∀ (xs : List (List Char)), xs ≠ [] →
    nlTerm xs = joinChAux '\n' xs ++ ['\n'] := by
  intro xs
  induction xs with
  | nil => intro h; exact absurd rfl h
  | cons l xs ih =>
    intro _
    cases xs with
    | nil => rfl
    | cons m xs =>
      have := ih (by simp)
      simp only [nlTerm, List.foldr_cons] at this ⊢
      rw [this]
      simp [joinChAux]

theorem hasSeq_nlTerm {xs : List (List Char)}
    (h : ∀ l ∈ xs, hasSeq "```".data l = false) :
    hasSeq "```".data (nlTerm xs) = false := by
  induction xs with
  | nil => rfl
  | cons l xs ih =>
    have : nlTerm (l :: xs) = l ++ '\n' :: nlTerm xs := rfl
    rw [this]
    exact hasSeq_join_nl (h l (List.mem_cons_self l xs))
      (ih (fun x hx => h x (List.mem_cons_of_mem l hx)))

theorem nlTerm_last : ∀ (xs : List (List Char)),
    nlTerm xs = [] ∨ (nlTerm xs).getLast? = some '\n' := by
  intro xs
  cases xs with
  | nil => exact Or.inl rfl
  | cons l xs =>
    right
    rw [nlTerm_eq_join_snoc _ (by simp)]
    simp

theorem join_eq_nlTerm_append (xs : List (List Char)) :
    ∀ ys, ys ≠ [] →
      joinChAux '\n' (xs ++ ys) = nlTerm xs ++ joinChAux '\n' ys := by
  induction xs with
  | nil => intro ys _; rfl
  | cons l xs ih =>
    intro ys hys
    have hne : xs ++ ys ≠ [] := by
      intro h
      exact hys (List.append_eq_nil.mp h).2
    have h1 : joinChAux '\n' (l :: (xs ++ ys)) = l ++ '\n' :: joinChAux '\n' (xs ++ ys) := by
      cases hxy : xs ++ ys with
      | nil => exact absurd hxy hne
      | cons a t => rfl
    simp only [List.cons_append, h1, ih ys hys]
    have : nlTerm (l :: xs) = l ++ '\n' :: nlTerm xs := rfl
    rw [this]
    simp

theorem splitChAux_no_sep {sep : Char} : ∀ (l : List Char), sep ∉ l →
    splitChAux sep l = [l] := by
  intro l
  induction l with
  | nil => intro _; rfl
  | cons c l ih =>
    intro h
    have hc : ¬ c = sep := fun hh => h (hh ▸ List.mem_cons_self c l)
    have hl : sep ∉ l := fun hh => h (List.mem_cons_of_mem c hh)
    simp only [splitChAux, if_neg hc, ih hl]

theorem splitChAux_append_sep {sep : Char} : ∀ (l rest : List Char), sep ∉ l →
    splitChAux sep (l ++ sep :: rest) = l :: splitChAux sep rest := by
  intro l
  induction l with
  | nil => intro rest _; simp [splitChAux]
  | cons c l ih =>
    intro rest h
    have hc : ¬ c = sep := fun hh => h (hh ▸ List.mem_cons_self c l)
    have hl : sep ∉ l := fun hh => h (List.mem_cons_of_mem c hh)
    simp only [List.cons_append, splitChAux, if_neg hc]
    rw [show (l.append (sep :: rest)) = l ++ sep :: rest from rfl, ih rest hl]

theorem splitNl_join : ∀ (ls : List (List Char)), ls ≠ [] →
    (∀ l ∈ ls, '\n' ∉ l) →
    splitChAux '\n' (joinChAux '\n' ls) = ls := by
  intro ls
  induction ls with
  | nil => intro h; exact absurd rfl h
  | cons l ls ih =>
    intro _ h
    cases ls with
    | nil =>
      simp only [joinChAux]
      exact splitChAux_no_sep l (h l (List.mem_cons_self l []))
    | cons m ls' =>
      have h1 : joinChAux '\n' (l :: m :: ls') = l ++ '\n' :: joinChAux '\n' (m :: ls') := rfl
      rw [h1, splitChAux_append_sep _ _ (h l (List.mem_cons_self l _)),
        ih (by simp) (fun x hx => h x (List.mem_cons_of_mem l hx))]

theorem dropWhile_append_of_ne_nil {p : Char → Bool} :
    ∀ (x y : List Char), x.dropWhile p ≠ [] →
      (x ++ y).dropWhile p = x.dropWhile p ++ y := by
  intro x
  induction x with
  | nil => intro y h; exact absurd rfl h
  | cons c x ih =>
    intro y h
    simp only [List.dropWhile, List.cons_append] at h ⊢
    cases hc : p c with
    | false => simp only [hc] at h ⊢; rfl
    | true =>
      simp only [hc] at h ⊢
      exact ih y h

theorem dropWhile_append_of_nil {p : Char → Bool} :
    ∀ (x y : List Char), x.dropWhile p = [] →
      (x ++ y).dropWhile p = y.dropWhile p := by
  intro x
  induction x with
  | nil => intro y _; rfl
  | cons c x ih =>
    intro y h
    simp only [List.dropWhile, List.cons_append] at h ⊢
    cases hc : p c with
    | false => simp only [hc] at h; exact absurd h (by simp)
    | true =>
      simp only [hc] at h ⊢
      exact ih y h

theorem trim_snoc_ws {c : Char} (x : List Char) (hc : isWS c = true) :
    trimCh (x ++ [c]) = trimCh x := by
  unfold trimCh
  cases hd : x.dropWhile isWS with
  | nil =>
    rw [dropWhile_append_of_nil x [c] hd]
    simp [List.dropWhile, hc, hd]
  | cons a t =>
    rw [dropWhile_append_of_ne_nil x [c] (by rw [hd]; simp), hd]
    have : ((a :: t) ++ [c]).reverse = c :: (a :: t).reverse := by simp
    rw [this]
    simp only [List.dropWhile, hc]

theorem trim_nlTerm (xs : List (List Char)) :
    trimCh (nlTerm xs) = trimCh (joinChAux '\n' xs) := by
  cases xs with
  | nil => rfl
  | cons l ls =>
    rw [nlTerm_eq_join_snoc _ (by simp)]
    exact trim_snoc_ws _ (by decide)

theorem takeWhile_all_append {p : Char → Bool} :
    ∀ (xs : List Char) (y : Char) (z : List Char),
      (∀ c ∈ xs, p c = true) → p y = false →
      (xs ++ y :: z).takeWhile p = xs := by
  intro xs
  induction xs with
  | nil => intro y z _ hy; simp [List.takeWhile, hy]
  | cons c xs ih =>
    intro y z h hy
    simp only [List.cons_append, List.takeWhile, h c (List.mem_cons_self c xs)]
    rw [show (xs.append (y :: z)) = xs ++ y :: z from rfl,
      ih y z (fun a ha => h a (List.mem_cons_of_mem c ha)) hy]

theorem dropWhile_all_append {p : Char → Bool} :
    ∀ (xs : List Char) (y : Char) (z : List Char),
      (∀ c ∈ xs, p c = true) → p y = false →
      (xs ++ y :: z).dropWhile p = y :: z := by
  intro xs
  induction xs with
  | nil => intro y z _ hy; simp [List.dropWhile, hy]
  | cons c xs ih =>
    intro y z h hy
    simp only [List.cons_append, List.dropWhile, h c (List.mem_cons_self c xs)]
    rw [show (xs.append (y :: z)) = xs ++ y :: z from rfl]
    exact ih y z (fun a ha => h a (List.mem_cons_of_mem c ha)) hy

/-! ## C7: the fence scanner on line-structured content -/

theorem isPre_self_append (p x : List Char) : p.isPrefixOf (p ++ x) = true := by
  rw [List.isPrefixOf_iff_prefix]
  exact List.prefix_append p x

theorem findTriple_append : ∀ (xs ys : List Char),
    hasSeq "```".data xs = false →
    (xs = [] ∨ xs.getLast? = some '\n') →
    findTriple (xs ++ "```".data ++ ys) = some (xs, ys) := by
  intro xs
  induction xs with
  | nil =>
    intro ys _ _
    simp only [List.nil_append]
    have hne : ("```".data ++ ys) ≠ [] := by simp
    obtain ⟨c, cs', hcons⟩ := List.exists_cons_of_ne_nil hne
    have h3 := congrArg (List.drop 3) hcons
    rw [(by decide : (3 : Nat) = "```".data.length), List.drop_left] at h3
    rw [hcons, findTriple, if_pos (by rw [← hcons]; exact isPre_self_append _ _)]
    exact congrArg some (congrArg _ h3.symm)
  | cons x xs ih =>
    intro ys hfree hlast
    have hlast' : (x :: xs).getLast? = some '\n' := by
      rcases hlast with h | h
      · exact absurd h (by simp)
      · exact h
    simp only [hasSeq, Bool.or_eq_false_iff] at hfree
    rw [List.append_assoc, List.cons_append, findTriple]
    have hk : "```".data.isPrefixOf (x :: (xs ++ ("```".data ++ ys))) = false :=
      triple_kill_snoc (x :: xs) ("```".data ++ ys) hfree.1 hlast'
    rw [if_neg (by intro hcon; rw [hk] at hcon; simp at hcon),
      ← List.append_assoc, ih ys hfree.2 ?hl]
    · rfl
    case hl =>
      cases hxs : xs with
      | nil => exact Or.inl rfl
      | cons a t =>
        right
        rw [← hxs, ← getLast?_cons_of_ne_nil (by rw [hxs]; simp)]
        exact hlast'

theorem fenceHere_at_fence (lang body1 ys : List Char)
    (hlang : ∀ c ∈ lang, isWordChar c = true)
    (hfree : hasSeq "```".data body1 = false)
    (hlast : body1 = [] ∨ body1.getLast? = some '\n') :
    fenceHere ("```".data ++ (lang ++ '\n' :: (body1 ++ "```".data ++ ys))) =
      some ("```".data ++ lang ++ '\n' :: body1 ++ "```".data,
        String.mk lang, body1, ys) := by
  have hdrop : ("```".data ++ (lang ++ '\n' :: (body1 ++ "```".data ++ ys))).drop 3
      = lang ++ '\n' :: (body1 ++ "```".data ++ ys) := by
    rw [(by decide : (3 : Nat) = "```".data.length), List.drop_left]
  simp only [fenceHere, isPre_self_append, if_pos, hdrop]
  rw [takeWhile_all_append lang '\n' _ hlang (by decide),
    dropWhile_all_append lang '\n' _ hlang (by decide)]
  simp only []
  rw [findTriple_append body1 ys hfree hlast]
  rfl

theorem findFence_skip : ∀ (pre cs : List Char),
    hasSeq "```".data pre = false →
    (pre = [] ∨ pre.getLast? = some '\n') →
    findFence (pre ++ cs) = (findFence cs).map (fun r => (pre ++ r.1, r.2)) := by
  intro pre
  induction pre with
  | nil =>
    intro cs _ _
    simp only [List.nil_append]
    cases hf : findFence cs with
    | none => rfl
    | some r =>
      obtain ⟨a, b, c, d, e⟩ := r
      rfl
  | cons x pre ih =>
    intro cs hfree hlast
    have hlast' : (x :: pre).getLast? = some '\n' := by
      rcases hlast with h | h
      · exact absurd h (by simp)
      · exact h
    simp only [hasSeq, Bool.or_eq_false_iff] at hfree
    have hk : "```".data.isPrefixOf (x :: (pre ++ cs)) = false :=
      triple_kill_snoc (x :: pre) cs hfree.1 hlast'
    rw [List.cons_append, findFence]
    have hfh : fenceHere (x :: (pre ++ cs)) = none := by
      rw [fenceHere, if_neg (by intro hcon; rw [hk] at hcon; simp at hcon)]
    rw [hfh]
    simp only []
    rw [ih cs hfree.2 ?hl]
    · cases hf : findFence cs with
      | none => rfl
      | some r =>
        obtain ⟨a, b, c, d, e⟩ := r
        rfl
    · cases hxs : pre with
      | nil => exact Or.inl rfl
      | cons a t =>
        right
        rw [← hxs, ← getLast?_cons_of_ne_nil (by rw [hxs]; simp)]
        exact hlast'

theorem findFence_none : ∀ (cs : List Char),
    hasSeq "```".data cs = false → findFence cs = none := by
  intro cs
  induction cs with
  | nil => intro _; rfl
  | cons c cs ih =>
    intro hfree
    simp only [hasSeq, Bool.or_eq_false_iff] at hfree
    rw [findFence]
    have hfh : fenceHere (c :: cs) = none := by
      rw [fenceHere, if_neg (by intro hcon; rw [hfree.1] at hcon; simp at hcon)]
    rw [hfh]
    simp only []
    rw [ih hfree.2]
    rfl

theorem findFence_at_fence (lang body1 ys : List Char)
    (hlang : ∀ c ∈ lang, isWordChar c = true)
    (hfree : hasSeq "```".data body1 = false)
    (hlast : body1 = [] ∨ body1.getLast? = some '\n') :
    findFence ("```".data ++ (lang ++ '\n' :: (body1 ++ "```".data ++ ys))) =
      some ([], "```".data ++ lang ++ '\n' :: body1 ++ "```".data,
        String.mk lang, body1, ys) := by
  have hne : ("```".data ++ (lang ++ '\n' :: (body1 ++ "```".data ++ ys))) ≠ [] := by
    simp
  obtain ⟨c, cs', hcons⟩ := List.exists_cons_of_ne_nil hne
  rw [hcons, findFence, ← hcons, fenceHere_at_fence lang body1 ys hlang hfree hlast]

/-! ## C7: replacement, joining and classification lemmas -/

theorem pre_trans {p m w : List Char} (h1 : p.isPrefixOf m = true)
    (h2 : m.isPrefixOf w = true) : p.isPrefixOf w = true := by
  rw [List.isPrefixOf_iff_prefix] at h1 h2 ⊢
  exact h1.trans h2

theorem replaceFirst_append : ∀ (pre m rep suf : List Char),
    hasSeq "```".data pre = false →
    (pre = [] ∨ pre.getLast? = some '\n') →
    "```".data.isPrefixOf m = true →
    replaceFirstCh m rep (pre ++ (m ++ suf)) = pre ++ (rep ++ suf) := by
  intro pre
  induction pre with
  | nil =>
    intro m rep suf _ _ hm
    have hne : m ≠ [] := by
      intro h
      rw [h] at hm
      exact absurd hm (by decide)
    obtain ⟨c, cs', hcons⟩ := List.exists_cons_of_ne_nil hne
    simp only [List.nil_append]
    have hcs : m ++ suf = c :: (cs' ++ suf) := by rw [hcons]; rfl
    rw [hcs, replaceFirstCh,
      if_pos (by rw [← hcs]; exact isPre_self_append m suf), ← hcs, List.drop_left]
  | cons x pre ih =>
    intro m rep suf hfree hlast hm
    have hlast' : (x :: pre).getLast? = some '\n' := by
      rcases hlast with h | h
      · exact absurd h (by simp)
      · exact h
    simp only [hasSeq, Bool.or_eq_false_iff] at hfree
    have hk : "```".data.isPrefixOf (x :: (pre ++ (m ++ suf))) = false :=
      triple_kill_snoc (x :: pre) (m ++ suf) hfree.1 hlast'
    rw [List.cons_append, replaceFirstCh]
    rw [if_neg (by
      intro hcon
      have := pre_trans hm hcon
      rw [hk] at this
      simp at this)]
    rw [ih m rep suf hfree.2 ?hl hm]
    · rfl
    case hl =>
      cases hxs : pre with
      | nil => exact Or.inl rfl
      | cons a t =>
        right
        rw [← hxs, ← getLast?_cons_of_ne_nil (by rw [hxs]; simp)]
        exact hlast'

theorem join_cons_ne {sep : Char} {l : List Char} {ls : List (List Char)}
    (h : ls ≠ []) : joinChAux sep (l :: ls) = l ++ sep :: joinChAux sep ls := by
  cases ls with
  | nil => exact absurd rfl h
  | cons a t => rfl

theorem hasSeq_join : ∀ (xs : List (List Char)),
    (∀ l ∈ xs, hasSeq "```".data l = false) →
    hasSeq "```".data (joinChAux '\n' xs) = false := by
  intro xs
  induction xs with
  | nil => intro _; rfl
  | cons l ls ih =>
    intro h
    cases ls with
    | nil => exact h l (List.mem_cons_self l [])
    | cons m t =>
      rw [join_cons_ne (by simp)]
      exact hasSeq_join_nl (h l (List.mem_cons_self l _))
        (ih (fun x hx => h x (List.mem_cons_of_mem l hx)))

theorem linesOf_joinNl (ls : List String) (hne : ls ≠ [])
    (h : ∀ l ∈ ls, '\n' ∉ l.data) : linesOf (joinNl ls) = ls := by
  unfold linesOf joinNl splitCh joinCh
  rw [show (String.mk (joinChAux '\n' (ls.map String.data))).data
      = joinChAux '\n' (ls.map String.data) from rfl]
  rw [splitNl_join _ (by simpa using hne) (by
    intro l hl
    obtain ⟨s, hs, rfl⟩ := List.mem_map.mp hl
    exact h s hs)]
  rw [List.map_map]
  have hid : (String.mk ∘ String.data) = id := funext (fun _ => rfl)
  rw [hid, List.map_id]

theorem extractAux_no_pipe : ∀ (ls : List String) (k : Nat),
    (∀ l ∈ ls, startsPipe l = false) →
    extractAux k [] ls = (ls, []) := by
  intro ls
  induction ls with
  | nil => intro k _; rfl
  | cons l ls ih =>
    intro k h
    have hsp : startsPipe l = false := h l (List.mem_cons_self l ls)
    have hpd : pipeDelim l = false := by
      cases hc : pipeDelim l
      · rfl
      · rw [startsPipe_of_pipeDelim hc] at hsp
        exact absurd hsp (by simp)
    rw [extractAux_cons_plain k ls hpd, ih k (fun x hx => h x (List.mem_cons_of_mem l hx))]

theorem codesOf_flushText (tb : List String) : codesOf (flushText tb) = [] := by
  unfold flushText
  split <;> rfl

theorem codesOf_flushBullets (bb : List String) : codesOf (flushBullets bb) = [] := by
  unfold flushBullets
  split <;> rfl

theorem codesOf_finalPass (cbs : List CodeBlockRec)
    (tbls : List (String × List TableRow)) :
    ∀ (ls tb bb : List String),
      codesOf (finalPass cbs tbls tb bb ls) = ls.filterMap (codeLineOf cbs) := by
  intro ls
  induction ls with
  | nil =>
    intro tb bb
    simp only [finalPass, codesOf, List.filterMap_append, List.filterMap_nil]
    have h1 := codesOf_flushText tb
    have h2 := codesOf_flushBullets bb
    simp only [codesOf] at h1 h2
    rw [h1, h2]
    rfl
  | cons l ls ih =>
    intro tb bb
    have h1 := codesOf_flushText tb
    have h2 := codesOf_flushBullets bb
    simp only [codesOf] at h1 h2
    have ihx : ∀ tb' bb', codesOf (finalPass cbs tbls tb' bb' ls)
        = ls.filterMap (codeLineOf cbs) := fun tb' bb' => ih tb' bb'
    simp only [codesOf] at ihx
    by_cases hc : hasCodeTok l = true
    · simp only [finalPass]
      rw [if_pos hc]
      simp only [codesOf, List.filterMap_append, List.filterMap_cons]
      rw [h1, h2, ihx]
      simp only [codeLineOf, if_pos hc]
      cases hf : cbs.find? (fun cb => cb.placeholder = jsTrim l) with
      | none => simp
      | some cb => simp [codeOf]
    · have hc' : hasCodeTok l = false := by
        cases hx : hasCodeTok l
        · rfl
        · exact absurd hx hc
      have hline : codeLineOf cbs l = none := by simp [codeLineOf, hc']
      by_cases ht : hasTableTok l = true
      · simp only [finalPass]
        rw [if_neg hc, if_pos ht]
        simp only [codesOf, List.filterMap_append, List.filterMap_cons, hline]
        rw [h1, h2, ihx]
        cases hf : tbls.find? (fun t => t.1 = jsTrim l) with
        | none => simp
        | some t => simp [codeOf]
      · by_cases hb : isBulletLine l = true
        · simp only [finalPass]
          rw [if_neg hc, if_neg ht, if_pos hb]
          simp only [codesOf, List.filterMap_append, List.filterMap_cons, hline]
          rw [h1, ihx]
          simp
        · by_cases hnb : jsTrim l ≠ ""
          · simp only [finalPass]
            rw [if_neg hc, if_neg ht, if_neg hb, if_pos hnb]
            simp only [codesOf, List.filterMap_append, List.filterMap_cons, hline]
            rw [h2, ihx]
            simp
          · simp only [finalPass]
            rw [if_neg hc, if_neg ht, if_neg hb, if_neg hnb]
            simp only [codesOf, List.filterMap_append, List.filterMap_cons, hline]
            rw [h1, h2, ihx]
            simp

/-! ## C7: the table pass preserves the code elements -/

theorem dropWhile_append_self {p : Char → Bool} (a b : List Char)
    (ha : a.dropWhile p = a) (hne : a ≠ []) :
    (a ++ b).dropWhile p = a ++ b := by
  rw [dropWhile_append_of_ne_nil a b (by rw [ha]; exact hne), ha]

theorem trimCh_of_ends (x : List Char) (h1 : x.dropWhile isWS = x)
    (h2 : x.reverse.dropWhile isWS = x.reverse) : trimCh x = x := by
  unfold trimCh
  rw [h1, h2, List.reverse_reverse]

theorem tablePH_data (k : Nat) :
    (tablePH k).data = "__TABLE_".data ++ ((toString k).data ++ "__".data) := by
  unfold tablePH
  rw [show ("__TABLE_" ++ toString k ++ "__") = "__TABLE_" ++ (toString k ++ "__") by
    rw [String.append_assoc]]
  rfl

theorem trim_tablePH (k : Nat) : jsTrim (tablePH k) = tablePH k := by
  have h : trimCh (tablePH k).data = (tablePH k).data := by
    refine trimCh_of_ends _ ?_ ?_
    · rw [tablePH_data]
      exact dropWhile_append_self _ _ (by decide) (by decide)
    · rw [tablePH_data, ← List.append_assoc, List.reverse_append]
      exact dropWhile_append_self _ _ (by decide) (by decide)
  unfold jsTrim
  rw [h]

theorem tablePH_third (k : Nat) : (tablePH k).data.get? 2 = some 'T' := by
  rw [tablePH_data, List.get?_append (by decide)]
  decide

theorem codePH_ne_trim_tablePH (i k : Nat) :
    (codePH i = jsTrim (tablePH k)) = False := by
  simp only [trim_tablePH, eq_iff_iff, iff_false]
  intro hcon
  have h1 : (codePH i).data.get? 2 = some 'T' := by rw [hcon, tablePH_third]
  have h2 : (codePH i).data.get? 2 = some 'C' := by
    unfold codePH
    rw [show ("__CODE_BLOCK_" ++ toString i ++ "__") =
        "__CODE_BLOCK_" ++ (toString i ++ "__") by rw [String.append_assoc]]
    rw [show ("__CODE_BLOCK_" ++ (toString i ++ "__")).data
        = "__CODE_BLOCK_".data ++ (toString i ++ "__").data from rfl]
    rw [List.get?_append (by decide)]
    decide
  rw [h1] at h2
  exact absurd h2 (by decide)

theorem codesFM_extractAux (cbs : List CodeBlockRec) :
    ∀ (ls : List String) (k : Nat) (acc : List String),
      (∀ l ∈ ls, startsPipe l = true → codeLineOf cbs l = none) →
      (∀ k', codeLineOf cbs (tablePH k') = none) →
      (extractAux k acc ls).1.filterMap (codeLineOf cbs)
        = ls.filterMap (codeLineOf cbs) := by
  intro ls
  induction ls with
  | nil =>
    intro k acc _ hph
    rw [extractAux_nil]
    split
    · simp [List.filterMap_cons, hph k]
    · rfl
  | cons l ls ih =>
    intro k acc h hph
    have htail : ∀ x ∈ ls, startsPipe x = true → codeLineOf cbs x = none :=
      fun x hx => h x (List.mem_cons_of_mem l hx)
    by_cases hacc : acc = []
    · subst hacc
      by_cases hq : pipeDelim l = true
      · rw [extractAux_cons_start k ls hq, ih k [l] htail hph,
          List.filterMap_cons,
          h l (List.mem_cons_self l ls) (startsPipe_of_pipeDelim hq)]
      · have hq' : pipeDelim l = false := by
          cases hx : pipeDelim l
          · rfl
          · exact absurd hx hq
        rw [extractAux_cons_plain k ls hq']
        simp only [List.filterMap_cons]
        rw [ih k [] htail hph]
    · by_cases hq : startsPipe l = true
      · rw [extractAux_cons_cont k ls hacc hq, ih k (acc ++ [l]) htail hph,
          List.filterMap_cons, h l (List.mem_cons_self l ls) hq]
      · have hq' : startsPipe l = false := by
          cases hx : startsPipe l
          · rfl
          · exact absurd hx hq
        by_cases hclose : 2 ≤ acc.length ∧ tableRowsOf acc ≠ []
        · rw [extractAux_cons_close_emit k ls hacc hq' hclose]
          simp only [List.filterMap_cons, hph k]
          rw [ih (k + 1) [] htail hph]
        · rw [extractAux_cons_close_drop k ls hacc hq' hclose]
          simp only [List.filterMap_cons]
          rw [ih k [] htail hph]

/-! ## C7: an all-plain-text tail accumulates into one text element -/

theorem finalPass_all_text (cbs : List CodeBlockRec)
    (tbls : List (String × List TableRow)) :
    ∀ (ls tb : List String),
      (∀ l ∈ ls, hasCodeTok l = false ∧ hasTableTok l = false ∧
        isBulletLine l = false ∧ jsTrim l ≠ "") →
      tb ++ ls ≠ [] →
      finalPass cbs tbls tb [] ls = [CElem.text (jsTrim (joinNl (tb ++ ls)))] := by
  intro ls
  induction ls with
  | nil =>
    intro tb _ hne
    simp only [List.append_nil] at hne ⊢
    simp only [finalPass, flushBullets, flushText, if_neg hne]
    rfl
  | cons l ls ih =>
    intro tb h hne
    have hl := h l (List.mem_cons_self l ls)
    simp only [finalPass]
    rw [if_neg (by simp [hl.1]), if_neg (by simp [hl.2.1]),
      if_neg (by simp [hl.2.2.1]), if_pos hl.2.2.2]
    rw [show flushBullets [] = [] from rfl]
    rw [ih (tb ++ [l]) (fun x hx => h x (List.mem_cons_of_mem l hx)) (by simp)]
    rw [List.append_assoc]
    rfl

/-! ## C7: scan-level and string-shape helpers -/

theorem tick3_eq : "```".data = ['\x60', '\x60', '\x60'] := by decide

theorem scanFences_none (cs : List Char) (h : hasSeq "```".data cs = false) :
    scanFences cs = [] := by
  rw [scanFences_eq, findFence_none cs h]

theorem findTriple_none : ∀ (cs : List Char),
    hasSeq "```".data cs = false → findTriple cs = none := by
  intro cs
  induction cs with
  | nil => intro _; rfl
  | cons c cs ih =>
    intro h
    simp only [hasSeq, Bool.or_eq_false_iff] at h
    rw [findTriple, if_neg (by intro hcon; rw [h.1] at hcon; simp at hcon),
      ih h.2]
    rfl

theorem head_of_isPrefixOf {a c : Char} {p w : List Char}
    (h : (a :: p).isPrefixOf (c :: w) = true) : a = c := by
  rw [List.isPrefixOf_iff_prefix] at h
  obtain ⟨t, ht⟩ := h
  simpa using congrArg List.head? ht

theorem hasSeq_nlTerm_append (b : List Char) : ∀ (xs : List (List Char)),
    (∀ l ∈ xs, hasSeq "```".data l = false) →
    hasSeq "```".data b = false →
    hasSeq "```".data (nlTerm xs ++ b) = false := by
  intro xs
  induction xs with
  | nil => intro _ hb; simpa using hb
  | cons l t ih =>
    intro h hb
    have h1 : nlTerm (l :: t) ++ b = l ++ '\n' :: (nlTerm t ++ b) := by
      rw [show nlTerm (l :: t) = l ++ '\n' :: nlTerm t from rfl]
      simp
    rw [h1]
    exact hasSeq_join_nl (h l (List.mem_cons_self l t))
      (ih (fun x hx => h x (List.mem_cons_of_mem l hx)) hb)

theorem last_append {v : List Char} {c : Char} (w : List Char)
    (h : v.getLast? = some c) : (w ++ v).getLast? = some c := by
  induction w with
  | nil => simpa using h
  | cons x w ih =>
    have hv : v ≠ [] := by
      intro hc
      rw [hc] at h
      exact absurd h (by simp)
    rw [List.cons_append, getLast?_cons_of_ne_nil (by simp [hv])]
    exact ih

theorem nlTerm_cons_last (xs : List (List Char)) :
    ('\n' :: nlTerm xs).getLast? = some '\n' := by
  rcases nlTerm_last xs with h | h
  · rw [h]
    rfl
  · rw [getLast?_cons_of_ne_nil (by
      intro hc
      rw [hc] at h
      exact absurd h (by simp))]
    exact h

theorem splitNl_nlTerm_append : ∀ (xs : List (List Char)) (rest : List Char),
    (∀ l ∈ xs, '\n' ∉ l) →
    splitChAux '\n' (nlTerm xs ++ rest) = xs ++ splitChAux '\n' rest := by
  intro xs
  induction xs with
  | nil => intro rest _; rfl
  | cons l t ih =>
    intro rest h
    have h1 : nlTerm (l :: t) ++ rest = l ++ '\n' :: (nlTerm t ++ rest) := by
      rw [show nlTerm (l :: t) = l ++ '\n' :: nlTerm t from rfl]
      simp
    rw [h1, splitChAux_append_sep l _ (h l (List.mem_cons_self l t)),
      ih rest (fun x hx => h x (List.mem_cons_of_mem l hx))]
    rfl

theorem join_cons_split (x : List Char) (C : List String)
    (hnl : ∀ s ∈ C, '\n' ∉ s.data)
    (hfree : ∀ s ∈ C, hasSeq "```".data s.data = false) :
    ∃ ys, joinChAux '\n' (x :: C.map String.data) = x ++ ys ∧
      hasSeq "```".data ys = false ∧
      (ys = [] ∨ ys.head? = some '\n') ∧
      ∀ w : List Char, '\n' ∉ w →
        splitChAux '\n' (w ++ ys) = w :: C.map String.data := by
  cases C with
  | nil =>
    refine ⟨[], by simp [joinChAux], rfl, Or.inl rfl, ?_⟩
    intro w hw
    rw [List.append_nil, splitChAux_no_sep w hw]
    rfl
  | cons m t =>
    refine ⟨'\n' :: joinChAux '\n' ((m :: t).map String.data),
      join_cons_ne (by simp), ?_, Or.inr rfl, ?_⟩
    · have hb : hasSeq "```".data (joinChAux '\n' ((m :: t).map String.data)) = false :=
        hasSeq_join _ (by
          intro l hl
          obtain ⟨s, hs, rfl⟩ := List.mem_map.mp hl
          exact hfree s hs)
      exact @hasSeq_join_nl [] _ (by decide) hb
    · intro w hw
      rw [splitChAux_append_sep w _ hw,
        splitNl_join _ (by simp) (by
          intro l hl
          obtain ⟨s, hs, rfl⟩ := List.mem_map.mp hl
          exact hnl s hs)]

theorem codeLineOf_none_of_no_tok (cbs : List CodeBlockRec) (l : String)
    (h : hasCodeTok l = false) : codeLineOf cbs l = none := by
  unfold codeLineOf
  rw [if_neg (by rw [h]; simp)]

theorem codeLineOf_pair_tablePH (a b c d : String) (k : Nat) :
    codeLineOf [⟨codePH 0, a, b⟩, ⟨codePH 1, c, d⟩] (tablePH k) = none := by
  have h0 := codePH_ne_trim_tablePH 0 k
  have h1 := codePH_ne_trim_tablePH 1 k
  unfold codeLineOf
  have hf : List.find? (fun cb => cb.placeholder = jsTrim (tablePH k))
      [(⟨codePH 0, a, b⟩ : CodeBlockRec), ⟨codePH 1, c, d⟩] = none := by
    simp [List.find?, h0, h1]
  rw [hf]
  split <;> rfl

theorem dropWhile_all {p : Char → Bool} : ∀ (xs : List Char),
    (∀ c ∈ xs, p c = true) → xs.dropWhile p = [] := by
  intro xs
  induction xs with
  | nil => intro _; rfl
  | cons c cs ih =>
    intro h
    rw [List.dropWhile_cons, if_pos (h c (List.mem_cons_self c cs)),
      ih (fun x hx => h x (List.mem_cons_of_mem c hx))]

theorem dropWhile_of_all_false {p : Char → Bool} : ∀ (xs : List Char),
    (∀ c ∈ xs, p c = false) → xs.dropWhile p = xs := by
  intro xs
  induction xs with
  | nil => intro _; rfl
  | cons c cs ih =>
    intro h
    rw [List.dropWhile_cons,
      if_neg (by rw [h c (List.mem_cons_self c cs)]; simp)]

theorem trim_of_no_ws (xs : List Char) (h : ∀ c ∈ xs, isWS c = false) :
    trimCh xs = xs := by
  refine trimCh_of_ends xs (dropWhile_of_all_false xs h) ?_
  rw [dropWhile_of_all_false _ (by
    intro c hc
    exact h c (List.mem_reverse.mp hc))]

theorem not_ws_of_wordChar {c : Char} (h : isWordChar c = true) :
    isWS c = false := by
  cases hw : isWS c with
  | false => rfl
  | true =>
    exfalso
    unfold isWS at hw
    simp only [Bool.or_eq_true, decide_eq_true_eq] at hw
    rcases hw with ((h1 | h1) | h1) | h1 <;> subst h1 <;> exact absurd h (by decide)

theorem no_triple_of_wordchars : ∀ (xs : List Char),
    (∀ c ∈ xs, isWordChar c = true) → hasSeq "```".data xs = false := by
  intro xs
  induction xs with
  | nil => intro _; rfl
  | cons c cs ih =>
    intro h
    have hc := h c (List.mem_cons_self c cs)
    have hpre : "```".data.isPrefixOf (c :: cs) = false := by
      cases hp : "```".data.isPrefixOf (c :: cs) with
      | false => rfl
      | true =>
        exfalso
        rw [tick3_eq] at hp
        rw [← head_of_isPrefixOf hp] at hc
        exact absurd hc (by decide)
    rw [hasSeq, hpre, ih (fun x hx => h x (List.mem_cons_of_mem c hx))]
    rfl

/-! ## C7: the two-fence scan, replacement and split shapes -/

theorem append_cons_ne_nil {α : Type} (x : List α) (a : α) (z : List α) :
    x ++ a :: z ≠ [] := by simp

theorem scan_shape (A' B1' M' B2' : List (List Char)) (l1 l2 ys2 : List Char)
    (hl1 : ∀ c ∈ l1, isWordChar c = true)
    (hl2 : ∀ c ∈ l2, isWordChar c = true)
    (hA : ∀ l ∈ A', hasSeq "```".data l = false)
    (hM : ∀ l ∈ M', hasSeq "```".data l = false)
    (hB1 : ∀ l ∈ B1', hasSeq "```".data l = false)
    (hB2 : ∀ l ∈ B2', hasSeq "```".data l = false)
    (h2 : hasSeq "```".data ys2 = false) :
    scanFences (nlTerm A' ++ ("```".data ++ (l1 ++ '\n' :: (nlTerm B1' ++ "```".data ++
        ('\n' :: (nlTerm M' ++ ("```".data ++ (l2 ++ '\n' :: (nlTerm B2' ++ "```".data ++ ys2))))))))) =
      [(String.mk l1, nlTerm B1', "```".data ++ l1 ++ '\n' :: nlTerm B1' ++ "```".data),
       (String.mk l2, nlTerm B2', "```".data ++ l2 ++ '\n' :: nlTerm B2' ++ "```".data)] := by
  have hfind1 : findFence (nlTerm A' ++ ("```".data ++ (l1 ++ '\n' :: (nlTerm B1' ++ "```".data ++
      ('\n' :: (nlTerm M' ++ ("```".data ++ (l2 ++ '\n' :: (nlTerm B2' ++ "```".data ++ ys2))))))))) =
      some (nlTerm A', "```".data ++ l1 ++ '\n' :: nlTerm B1' ++ "```".data,
        String.mk l1, nlTerm B1',
        '\n' :: (nlTerm M' ++ ("```".data ++ (l2 ++ '\n' :: (nlTerm B2' ++ "```".data ++ ys2))))) := by
    rw [findFence_skip _ _ (hasSeq_nlTerm hA) (nlTerm_last A'),
      findFence_at_fence l1 (nlTerm B1') _ hl1 (hasSeq_nlTerm hB1) (nlTerm_last B1')]
    simp only [Option.map_some', List.append_nil]
  have hfind2 : findFence ('\n' :: (nlTerm M' ++ ("```".data ++ (l2 ++ '\n' :: (nlTerm B2' ++ "```".data ++ ys2))))) =
      some ('\n' :: nlTerm M', "```".data ++ l2 ++ '\n' :: nlTerm B2' ++ "```".data,
        String.mk l2, nlTerm B2', ys2) := by
    rw [show ('\n' :: (nlTerm M' ++ ("```".data ++ (l2 ++ '\n' :: (nlTerm B2' ++ "```".data ++ ys2)))))
        = ('\n' :: nlTerm M') ++ ("```".data ++ (l2 ++ '\n' :: (nlTerm B2' ++ "```".data ++ ys2))) from rfl,
      findFence_skip ('\n' :: nlTerm M') _
        (@hasSeq_join_nl [] _ (by decide) (hasSeq_nlTerm hM))
        (Or.inr (nlTerm_cons_last M')),
      findFence_at_fence l2 (nlTerm B2') ys2 hl2 (hasSeq_nlTerm hB2) (nlTerm_last B2')]
    simp only [Option.map_some', List.append_nil]
  rw [scanFences_eq, hfind1]
  simp only []
  rw [scanFences_eq, hfind2]
  simp only []
  rw [scanFences_none ys2 h2]

theorem replace_two (A' B1' M' B2' : List (List Char)) (l1 l2 ys2 : List Char)
    (hA : ∀ l ∈ A', hasSeq "```".data l = false)
    (hM : ∀ l ∈ M', hasSeq "```".data l = false) :
    replaceFirstCh ("```".data ++ l2 ++ '\n' :: nlTerm B2' ++ "```".data) (codePH 1).data
      (replaceFirstCh ("```".data ++ l1 ++ '\n' :: nlTerm B1' ++ "```".data) (codePH 0).data
        (nlTerm A' ++ ("```".data ++ (l1 ++ '\n' :: (nlTerm B1' ++ "```".data ++
          ('\n' :: (nlTerm M' ++ ("```".data ++ (l2 ++ '\n' :: (nlTerm B2' ++ "```".data ++ ys2))))))))))
      = nlTerm A' ++ ((codePH 0).data ++ '\n' :: (nlTerm M' ++ ((codePH 1).data ++ ys2))) := by
  have hm1pre : "```".data.isPrefixOf ("```".data ++ l1 ++ '\n' :: nlTerm B1' ++ "```".data) = true := by
    rw [show "```".data ++ l1 ++ '\n' :: nlTerm B1' ++ "```".data
        = "```".data ++ (l1 ++ (('\n' :: nlTerm B1') ++ "```".data)) from by simp [List.append_assoc]]
    exact isPre_self_append _ _
  have hm2pre : "```".data.isPrefixOf ("```".data ++ l2 ++ '\n' :: nlTerm B2' ++ "```".data) = true := by
    rw [show "```".data ++ l2 ++ '\n' :: nlTerm B2' ++ "```".data
        = "```".data ++ (l2 ++ (('\n' :: nlTerm B2') ++ "```".data)) from by simp [List.append_assoc]]
    exact isPre_self_append _ _
  rw [show nlTerm A' ++ ("```".data ++ (l1 ++ '\n' :: (nlTerm B1' ++ "```".data ++
        ('\n' :: (nlTerm M' ++ ("```".data ++ (l2 ++ '\n' :: (nlTerm B2' ++ "```".data ++ ys2))))))))
      = nlTerm A' ++ (("```".data ++ l1 ++ '\n' :: nlTerm B1' ++ "```".data) ++
        ('\n' :: (nlTerm M' ++ ("```".data ++ (l2 ++ '\n' :: (nlTerm B2' ++ "```".data ++ ys2))))))
      from by simp [List.append_assoc]]
  rw [replaceFirst_append _ _ _ _ (hasSeq_nlTerm hA) (nlTerm_last A') hm1pre]
  rw [show nlTerm A' ++ ((codePH 0).data ++
        ('\n' :: (nlTerm M' ++ ("```".data ++ (l2 ++ '\n' :: (nlTerm B2' ++ "```".data ++ ys2))))))
      = (nlTerm A' ++ ((codePH 0).data ++ '\n' :: nlTerm M')) ++
        (("```".data ++ l2 ++ '\n' :: nlTerm B2' ++ "```".data) ++ ys2)
      from by simp [List.append_assoc]]
  rw [replaceFirst_append _ _ _ _
    (hasSeq_nlTerm_append ((codePH 0).data ++ '\n' :: nlTerm M') A' hA
      (@hasSeq_join_nl ((codePH 0).data) (nlTerm M') (by decide) (hasSeq_nlTerm hM)))
    (Or.inr (last_append _ (last_append _ (nlTerm_cons_last M')))) hm2pre]
  simp [List.append_assoc]

theorem split_after_replace (A' M' : List (List Char)) (ys2 : List Char) (C : List String)
    (hAnl : ∀ l ∈ A', '\n' ∉ l) (hMnl : ∀ l ∈ M', '\n' ∉ l)
    (hsplit2 : ∀ w : List Char, '\n' ∉ w →
      splitChAux '\n' (w ++ ys2) = w :: C.map String.data) :
    splitChAux '\n' (nlTerm A' ++ ((codePH 0).data ++ '\n' :: (nlTerm M' ++ ((codePH 1).data ++ ys2))))
      = A' ++ (codePH 0).data :: (M' ++ (codePH 1).data :: C.map String.data) := by
  rw [splitNl_nlTerm_append A' _ hAnl,
    splitChAux_append_sep _ _ (by decide),
    splitNl_nlTerm_append M' _ hMnl,
    hsplit2 _ (by decide)]

theorem codeLineOf_pair_ph0 (a b c d : String) :
    codeLineOf [⟨codePH 0, a, b⟩, ⟨codePH 1, c, d⟩] (codePH 0) = some (a, b) := by
  unfold codeLineOf
  rw [if_pos (by decide : hasCodeTok (codePH 0) = true)]
  have he : ((⟨codePH 0, a, b⟩ : CodeBlockRec).placeholder = jsTrim (codePH 0)) = True := by
    simp [show jsTrim (codePH 0) = codePH 0 from by decide]
  simp [List.find?, he]

theorem codeLineOf_pair_ph1 (a b c d : String) :
    codeLineOf [⟨codePH 0, a, b⟩, ⟨codePH 1, c, d⟩] (codePH 1) = some (c, d) := by
  unfold codeLineOf
  rw [if_pos (by decide : hasCodeTok (codePH 1) = true)]
  have he0 : ((⟨codePH 0, a, b⟩ : CodeBlockRec).placeholder = jsTrim (codePH 1)) = False := by
    simp only [show (⟨codePH 0, a, b⟩ : CodeBlockRec).placeholder = codePH 0 from rfl]
    exact eq_false (by decide)
  have he1 : ((⟨codePH 1, c, d⟩ : CodeBlockRec).placeholder = jsTrim (codePH 1)) = True := by
    simp [show jsTrim (codePH 1) = codePH 1 from by decide]
  simp [List.find?, he0, he1]

/-! ## C7: an unterminated fence never matches the fence regex -/

theorem fenceHere_unterminated (ld ys : List Char)
    (hlang : ∀ c ∈ ld, isWordChar c = true)
    (hys : ys = [] ∨ ∃ t, ys = '\n' :: t ∧ hasSeq "```".data t = false) :
    fenceHere ("```".data ++ (ld ++ ys)) = none := by
  have hdrop : ("```".data ++ (ld ++ ys)).drop 3 = ld ++ ys := by
    rw [(by decide : (3 : Nat) = "```".data.length), List.drop_left]
  simp only [fenceHere, isPre_self_append, if_pos, hdrop]
  rcases hys with rfl | ⟨t, rfl, hfree⟩
  · rw [List.append_nil, dropWhile_all ld hlang]
  · rw [dropWhile_all_append ld '\n' t hlang (by decide)]
    simp only []
    rw [findTriple_none t hfree]
    rfl

theorem findFence_unterminated (w : List Char)
    (hw : hasSeq "```".data w = false)
    (hhd : ∀ t : List Char, w ≠ '\x60' :: t)
    (hfh : fenceHere ("```".data ++ w) = none) :
    findFence ("```".data ++ w) = none := by
  have h2 : "```".data.isPrefixOf ('\x60' :: '\x60' :: w) = false := by
    cases hp : "```".data.isPrefixOf ('\x60' :: '\x60' :: w) with
    | false => rfl
    | true =>
      exfalso
      obtain ⟨t, ht⟩ := List.isPrefixOf_iff_prefix.mp hp
      have hg : ("```".data ++ t).get? 2 = some '\x60' := by
        rw [List.get?_append (by decide)]
        decide
      rw [ht] at hg
      cases w with
      | nil => simp at hg
      | cons c cs =>
        have hc : c = '\x60' := by simpa using hg
        exact hhd cs (by rw [hc])
  have h3 : "```".data.isPrefixOf ('\x60' :: w) = false := by
    cases hp : "```".data.isPrefixOf ('\x60' :: w) with
    | false => rfl
    | true =>
      exfalso
      obtain ⟨t, ht⟩ := List.isPrefixOf_iff_prefix.mp hp
      have hg : ("```".data ++ t).get? 1 = some '\x60' := by
        rw [List.get?_append (by decide)]
        decide
      rw [ht] at hg
      cases w with
      | nil => simp at hg
      | cons c cs =>
        have hc : c = '\x60' := by simpa using hg
        exact hhd cs (by rw [hc])
  have hfh1 : fenceHere ('\x60' :: '\x60' :: '\x60' :: w) = none := hfh
  have hfh2 : fenceHere ('\x60' :: '\x60' :: w) = none := by
    rw [fenceHere, if_neg (by intro hcon; rw [h2] at hcon; simp at hcon)]
  have hfh3 : fenceHere ('\x60' :: w) = none := by
    rw [fenceHere, if_neg (by intro hcon; rw [h3] at hcon; simp at hcon)]
  rw [show "```".data ++ w = '\x60' :: ('\x60' :: '\x60' :: w) from by rw [tick3_eq]; rfl]
  rw [findFence, hfh1]
  simp only []
  rw [findFence, hfh2]
  simp only []
  rw [findFence, hfh3]
  simp only []
  rw [findFence_none w hw]
  rfl

theorem unterminated_fence_text (A B : List String) (l : String)
    (hlang : ∀ c ∈ l.data, isWordChar c = true)
    (hA : ∀ s ∈ A, '\n' ∉ s.data ∧ hasSeq "```".data s.data = false ∧
      hasCodeTok s = false ∧ hasTableTok s = false ∧ isBulletLine s = false ∧
      startsPipe s = false ∧ jsTrim s ≠ "")
    (hB : ∀ s ∈ B, '\n' ∉ s.data ∧ hasSeq "```".data s.data = false ∧
      hasCodeTok s = false ∧ hasTableTok s = false ∧ isBulletLine s = false ∧
      startsPipe s = false ∧ jsTrim s ≠ "")
    (hop1 : hasCodeTok ("```" ++ l) = false)
    (hop2 : hasTableTok ("```" ++ l) = false) :
    parseContentElements (joinNl (A ++ ("```" ++ l) :: B)) =
      [CElem.text (jsTrim (joinNl (A ++ ("```" ++ l) :: B)))] := by
  obtain ⟨ys, hj, hysfree, hyshead, _⟩ :=
    join_cons_split ("```" ++ l).data B (fun s hs => (hB s hs).1) (fun s hs => (hB s hs).2.1)
  have hdata : ("```" ++ l).data = "```".data ++ l.data := rfl
  have hAfree : ∀ x ∈ A.map String.data, hasSeq "```".data x = false := by
    intro x hx
    obtain ⟨s, hs, rfl⟩ := List.mem_map.mp hx
    exact (hA s hs).2.1
  have hshape : (joinNl (A ++ ("```" ++ l) :: B)).data
      = nlTerm (A.map String.data) ++ ("```".data ++ (l.data ++ ys)) := by
    rw [show (joinNl (A ++ ("```" ++ l) :: B)).data
        = joinChAux '\n' ((A ++ ("```" ++ l) :: B).map String.data) from rfl]
    simp only [List.map_append, List.map_cons]
    rw [join_eq_nlTerm_append (A.map String.data) _ (List.cons_ne_nil _ _), hj, hdata]
    simp [List.append_assoc]
  have hyscase : ys = [] ∨ ∃ t, ys = '\n' :: t ∧ hasSeq "```".data t = false := by
    rcases hyshead with h | h
    · exact Or.inl h
    · cases ys with
      | nil => simp at h
      | cons a t =>
        have ha : a = '\n' := by simpa using h
        subst ha
        refine Or.inr ⟨t, rfl, ?_⟩
        have hv := hysfree
        rw [show hasSeq "```".data ('\n' :: t)
            = ("```".data.isPrefixOf ('\n' :: t) || hasSeq "```".data t) from rfl] at hv
        simp only [Bool.or_eq_false_iff] at hv
        exact hv.2
  have hhd : ∀ t : List Char, l.data ++ ys ≠ '\x60' :: t := by
    intro t hcon
    cases hl : l.data with
    | cons c cs =>
      rw [hl] at hcon
      simp only [List.cons_append, List.cons.injEq] at hcon
      have hwc := hlang c (by rw [hl]; exact List.mem_cons_self c cs)
      rw [hcon.1] at hwc
      exact absurd hwc (by decide)
    | nil =>
      rw [hl] at hcon
      simp only [List.nil_append] at hcon
      rcases hyshead with h | h
      · rw [h] at hcon
        exact absurd hcon (by simp)
      · rw [hcon] at h
        simp at h
  have hwfree : hasSeq "```".data (l.data ++ ys) = false := by
    rcases hyscase with rfl | ⟨t, rfl, hfree⟩
    · rw [List.append_nil]
      exact no_triple_of_wordchars l.data hlang
    · exact hasSeq_join_nl (no_triple_of_wordchars l.data hlang) hfree
  have hffnone : findFence (joinNl (A ++ ("```" ++ l) :: B)).data = none := by
    rw [hshape, findFence_skip _ _ (hasSeq_nlTerm hAfree) (nlTerm_last _),
      findFence_unterminated (l.data ++ ys) hwfree hhd
        (fenceHere_unterminated l.data ys hlang hyscase)]
    rfl
  have hscan : scanFences (joinNl (A ++ ("```" ++ l) :: B)).data = [] := by
    rw [scanFences_eq, hffnone]
  have hext : extractCodeBlocks (joinNl (A ++ ("```" ++ l) :: B)) =
      (joinNl (A ++ ("```" ++ l) :: B), []) := by
    simp only [extractCodeBlocks, hscan]
    rfl
  have hopdata : ("```" ++ l).data = '\x60' :: ('\x60' :: ('\x60' :: l.data)) := by
    rw [hdata, tick3_eq]
    rfl
  have htop : jsTrim ("```" ++ l) = "```" ++ l := by
    rw [show jsTrim ("```" ++ l) = String.mk (trimCh ("```" ++ l).data) from rfl, hdata]
    rw [trim_of_no_ws _ (by
      intro c hc
      rcases List.mem_append.mp hc with h | h
      · rw [tick3_eq] at h
        simp at h
        rw [h]
        decide
      · exact not_ws_of_wordChar (hlang c h))]
    rw [← hdata]
  have hsp : startsPipe ("```" ++ l) = false := by
    unfold startsPipe leadsWith
    rw [htop, hopdata]
    cases hp : "|".data.isPrefixOf ('\x60' :: ('\x60' :: ('\x60' :: l.data))) with
    | false => rfl
    | true =>
      exfalso
      rw [show "|".data = ['|'] from by decide] at hp
      exact absurd (head_of_isPrefixOf hp) (by decide)
  have hbul : isBulletLine ("```" ++ l) = false := by
    unfold isBulletLine
    rw [hopdata]
    dsimp only
    rw [List.takeWhile_cons, if_neg (by decide)]
    simp only [List.length_nil, List.drop_zero]
    show ((decide (('\x60' : Char) = '-') || decide (('\x60' : Char) = '*') ||
        decide (('\x60' : Char) = '•')) &&
      decide ((List.takeWhile isWS ('\x60' :: ('\x60' :: l.data))).length ≠ 0)) = false
    rw [show (decide (('\x60' : Char) = '-') || decide (('\x60' : Char) = '*') ||
        decide (('\x60' : Char) = '•')) = false from by decide, Bool.false_and]
  have hnb : jsTrim ("```" ++ l) ≠ "" := by
    rw [htop]
    intro hcon
    have hd := congrArg String.data hcon
    rw [hopdata, show ("" : String).data = ([] : List Char) from rfl] at hd
    exact absurd hd (by simp)
  have hnlAll : ∀ s ∈ A ++ ("```" ++ l) :: B, '\n' ∉ s.data := by
    intro s hs
    rcases List.mem_append.mp hs with h | h
    · exact (hA s h).1
    · rcases List.mem_cons.mp h with rfl | h
      · rw [hopdata]
        intro hc
        simp only [List.mem_cons] at hc
        rcases hc with h1 | h1 | h1 | h1
        · exact absurd h1 (by decide)
        · exact absurd h1 (by decide)
        · exact absurd h1 (by decide)
        · exact absurd (hlang _ h1) (by decide)
      · exact (hB s h).1
  have hlines : linesOf (joinNl (A ++ ("```" ++ l) :: B)) = A ++ ("```" ++ l) :: B :=
    linesOf_joinNl _ (append_cons_ne_nil _ _ _) hnlAll
  have htab : extractTables 0 (A ++ ("```" ++ l) :: B) = (A ++ ("```" ++ l) :: B, []) := by
    unfold extractTables
    refine extractAux_no_pipe _ 0 ?_
    intro s hs
    rcases List.mem_append.mp hs with h | h
    · exact (hA s h).2.2.2.2.2.1
    · rcases List.mem_cons.mp h with rfl | h
      · exact hsp
      · exact (hB s h).2.2.2.2.2.1
  have hcond : ∀ s ∈ A ++ ("```" ++ l) :: B, hasCodeTok s = false ∧
      hasTableTok s = false ∧ isBulletLine s = false ∧ jsTrim s ≠ "" := by
    intro s hs
    rcases List.mem_append.mp hs with h | h
    · exact ⟨(hA s h).2.2.1, (hA s h).2.2.2.1, (hA s h).2.2.2.2.1, (hA s h).2.2.2.2.2.2⟩
    · rcases List.mem_cons.mp h with rfl | h
      · exact ⟨hop1, hop2, hbul, hnb⟩
      · exact ⟨(hB s h).2.2.1, (hB s h).2.2.2.1, (hB s h).2.2.2.2.1, (hB s h).2.2.2.2.2.2⟩
  simp only [parseContentElements, hext]
  rw [hlines, htab]
  simpa using finalPass_all_text [] [] (A ++ ("```" ++ l) :: B) [] hcond (by simp)

/-! ## C7: the full two-fence pipeline -/

theorem two_fences_codes (A B1 M B2 C : List String) (l1 l2 : String)
    (hl1 : ∀ c ∈ l1.data, isWordChar c = true)
    (hl2 : ∀ c ∈ l2.data, isWordChar c = true)
    (hA : ∀ s ∈ A, '\n' ∉ s.data ∧ hasSeq "```".data s.data = false ∧ hasCodeTok s = false)
    (hM : ∀ s ∈ M, '\n' ∉ s.data ∧ hasSeq "```".data s.data = false ∧ hasCodeTok s = false)
    (hC : ∀ s ∈ C, '\n' ∉ s.data ∧ hasSeq "```".data s.data = false ∧ hasCodeTok s = false)
    (hB1 : ∀ s ∈ B1, '\n' ∉ s.data ∧ hasSeq "```".data s.data = false)
    (hB2 : ∀ s ∈ B2, '\n' ∉ s.data ∧ hasSeq "```".data s.data = false) :
    codesOf (parseContentElements (joinNl (A ++ ("```" ++ l1) :: (B1 ++ "```" :: (M ++ ("```" ++ l2) :: (B2 ++ "```" :: C)))))) =
      [(if l1 = "" then "text" else l1, jsTrim (joinNl B1)),
       (if l2 = "" then "text" else l2, jsTrim (joinNl B2))] := by
  obtain ⟨ys2, hj2, hfree2, _hh2, hsplit2⟩ :=
    join_cons_split "```".data C (fun s hs => (hC s hs).1) (fun s hs => (hC s hs).2.1)
  have hAfree : ∀ x ∈ A.map String.data, hasSeq "```".data x = false := by
    intro x hx
    obtain ⟨s, hs, rfl⟩ := List.mem_map.mp hx
    exact (hA s hs).2.1
  have hMfree : ∀ x ∈ M.map String.data, hasSeq "```".data x = false := by
    intro x hx
    obtain ⟨s, hs, rfl⟩ := List.mem_map.mp hx
    exact (hM s hs).2.1
  have hB1free : ∀ x ∈ B1.map String.data, hasSeq "```".data x = false := by
    intro x hx
    obtain ⟨s, hs, rfl⟩ := List.mem_map.mp hx
    exact (hB1 s hs).2
  have hB2free : ∀ x ∈ B2.map String.data, hasSeq "```".data x = false := by
    intro x hx
    obtain ⟨s, hs, rfl⟩ := List.mem_map.mp hx
    exact (hB2 s hs).2
  have hAnl : ∀ x ∈ A.map String.data, '\n' ∉ x := by
    intro x hx
    obtain ⟨s, hs, rfl⟩ := List.mem_map.mp hx
    exact (hA s hs).1
  have hMnl : ∀ x ∈ M.map String.data, '\n' ∉ x := by
    intro x hx
    obtain ⟨s, hs, rfl⟩ := List.mem_map.mp hx
    exact (hM s hs).1
  have hd1 : ("```" ++ l1).data = "```".data ++ l1.data := rfl
  have hd2 : ("```" ++ l2).data = "```".data ++ l2.data := rfl
  have hshape : (joinNl (A ++ ("```" ++ l1) :: (B1 ++ "```" :: (M ++ ("```" ++ l2) :: (B2 ++ "```" :: C))))).data = nlTerm (A.map String.data) ++ ("```".data ++ (l1.data ++ '\n' :: (nlTerm (B1.map String.data) ++ "```".data ++ ('\n' :: (nlTerm (M.map String.data) ++ ("```".data ++ (l2.data ++ '\n' :: (nlTerm (B2.map String.data) ++ "```".data ++ ys2)))))))) := by
    rw [show (joinNl (A ++ ("```" ++ l1) :: (B1 ++ "```" :: (M ++ ("```" ++ l2) :: (B2 ++ "```" :: C))))).data = joinChAux '\n' ((A ++ ("```" ++ l1) :: (B1 ++ "```" :: (M ++ ("```" ++ l2) :: (B2 ++ "```" :: C)))).map String.data) from rfl]
    simp only [List.map_append, List.map_cons]
    rw [join_eq_nlTerm_append (A.map String.data) _ (List.cons_ne_nil _ _)]
    rw [join_cons_ne (append_cons_ne_nil _ _ _)]
    rw [join_eq_nlTerm_append (B1.map String.data) _ (List.cons_ne_nil _ _)]
    rw [join_cons_ne (append_cons_ne_nil _ _ _)]
    rw [join_eq_nlTerm_append (M.map String.data) _ (List.cons_ne_nil _ _)]
    rw [join_cons_ne (append_cons_ne_nil _ _ _)]
    rw [join_eq_nlTerm_append (B2.map String.data) _ (List.cons_ne_nil _ _)]
    rw [hj2]
    rw [hd1, hd2]
    simp [List.append_assoc]
  have hscan : scanFences (joinNl (A ++ ("```" ++ l1) :: (B1 ++ "```" :: (M ++ ("```" ++ l2) :: (B2 ++ "```" :: C))))).data =
      [(String.mk l1.data, nlTerm (B1.map String.data), "```".data ++ l1.data ++ '\n' :: nlTerm (B1.map String.data) ++ "```".data),
       (String.mk l2.data, nlTerm (B2.map String.data), "```".data ++ l2.data ++ '\n' :: nlTerm (B2.map String.data) ++ "```".data)] := by
    rw [hshape]
    exact scan_shape (A.map String.data) (B1.map String.data) (M.map String.data)
      (B2.map String.data) l1.data l2.data ys2 hl1 hl2 hAfree hMfree hB1free hB2free hfree2
  have hext : extractCodeBlocks (joinNl (A ++ ("```" ++ l1) :: (B1 ++ "```" :: (M ++ ("```" ++ l2) :: (B2 ++ "```" :: C))))) = (String.mk (nlTerm (A.map String.data) ++ ((codePH 0).data ++ '\n' :: (nlTerm (M.map String.data) ++ ((codePH 1).data ++ ys2)))), [⟨codePH 0, if String.mk l1.data = "" then "text" else String.mk l1.data, jsTrim (String.mk (nlTerm (B1.map String.data)))⟩, ⟨codePH 1, if String.mk l2.data = "" then "text" else String.mk l2.data, jsTrim (String.mk (nlTerm (B2.map String.data)))⟩]) := by
    simp only [extractCodeBlocks, hscan, List.enum, List.enumFrom, List.foldl_cons,
      List.foldl_nil, List.map_cons, List.map_nil]
    simp only [Prod.mk.injEq]
    constructor
    · rw [show jsReplaceFirst (jsReplaceFirst (joinNl (A ++ ("```" ++ l1) :: (B1 ++ "```" :: (M ++ ("```" ++ l2) :: (B2 ++ "```" :: C)))))
            (String.mk ("```".data ++ l1.data ++ '\n' :: nlTerm (B1.map String.data) ++ "```".data)) (codePH 0))
            (String.mk ("```".data ++ l2.data ++ '\n' :: nlTerm (B2.map String.data) ++ "```".data)) (codePH 1)
          = String.mk (replaceFirstCh ("```".data ++ l2.data ++ '\n' :: nlTerm (B2.map String.data) ++ "```".data) (codePH 1).data
              (replaceFirstCh ("```".data ++ l1.data ++ '\n' :: nlTerm (B1.map String.data) ++ "```".data) (codePH 0).data
                (joinNl (A ++ ("```" ++ l1) :: (B1 ++ "```" :: (M ++ ("```" ++ l2) :: (B2 ++ "```" :: C))))).data)) from rfl]
      rw [hshape]
      exact congrArg String.mk (replace_two (A.map String.data) (B1.map String.data)
        (M.map String.data) (B2.map String.data) l1.data l2.data ys2 hAfree hMfree)
    · trivial
  have hlines : linesOf (String.mk (nlTerm (A.map String.data) ++ ((codePH 0).data ++ '\n' :: (nlTerm (M.map String.data) ++ ((codePH 1).data ++ ys2))))) = (A ++ codePH 0 :: (M ++ codePH 1 :: C)) := by
    rw [show linesOf (String.mk (nlTerm (A.map String.data) ++ ((codePH 0).data ++ '\n' :: (nlTerm (M.map String.data) ++ ((codePH 1).data ++ ys2))))) = (splitChAux '\n' (nlTerm (A.map String.data) ++ ((codePH 0).data ++ '\n' :: (nlTerm (M.map String.data) ++ ((codePH 1).data ++ ys2))))).map String.mk from rfl]
    rw [split_after_replace (A.map String.data) (M.map String.data) ys2 C hAnl hMnl hsplit2]
    simp only [List.map_append, List.map_cons, List.map_map]
    rw [show (String.mk ∘ String.data) = id from funext (fun _ => rfl)]
    simp only [List.map_id]
  have hstart : ∀ (cbs : List CodeBlockRec), ∀ s ∈ (A ++ codePH 0 :: (M ++ codePH 1 :: C)),
      startsPipe s = true → codeLineOf cbs s = none := by
    intro cbs s hs hsp
    rcases List.mem_append.mp hs with h | h
    · exact codeLineOf_none_of_no_tok cbs s (hA s h).2.2
    · rcases List.mem_cons.mp h with rfl | h
      · rw [show startsPipe (codePH 0) = false from by decide] at hsp
        exact absurd hsp (by decide)
      · rcases List.mem_append.mp h with h | h
        · exact codeLineOf_none_of_no_tok cbs s (hM s h).2.2
        · rcases List.mem_cons.mp h with rfl | h
          · rw [show startsPipe (codePH 1) = false from by decide] at hsp
            exact absurd hsp (by decide)
          · exact codeLineOf_none_of_no_tok cbs s (hC s h).2.2
  have hcode1 : jsTrim (String.mk (nlTerm (B1.map String.data))) = jsTrim (joinNl B1) := by
    rw [show jsTrim (String.mk (nlTerm (B1.map String.data)))
        = String.mk (trimCh (nlTerm (B1.map String.data))) from rfl,
      show jsTrim (joinNl B1) = String.mk (trimCh (joinChAux '\n' (B1.map String.data))) from rfl,
      trim_nlTerm]
  have hcode2 : jsTrim (String.mk (nlTerm (B2.map String.data))) = jsTrim (joinNl B2) := by
    rw [show jsTrim (String.mk (nlTerm (B2.map String.data)))
        = String.mk (trimCh (nlTerm (B2.map String.data))) from rfl,
      show jsTrim (joinNl B2) = String.mk (trimCh (joinChAux '\n' (B2.map String.data))) from rfl,
      trim_nlTerm]
  simp only [parseContentElements, hext]
  rw [hlines]
  rw [show extractTables 0 (A ++ codePH 0 :: (M ++ codePH 1 :: C)) = extractAux 0 [] (A ++ codePH 0 :: (M ++ codePH 1 :: C)) from rfl]
  rw [codesOf_finalPass]
  rw [codesFM_extractAux _ (A ++ codePH 0 :: (M ++ codePH 1 :: C)) 0 [] (hstart _)
    (fun k' => codeLineOf_pair_tablePH _ _ _ _ k')]
  simp only [List.filterMap_append, List.filterMap_cons, codeLineOf_pair_ph0,
    codeLineOf_pair_ph1]
  rw [List.filterMap_eq_nil.mpr (fun s hs => codeLineOf_none_of_no_tok _ s (hA s hs).2.2),
    List.filterMap_eq_nil.mpr (fun s hs => codeLineOf_none_of_no_tok _ s (hM s hs).2.2),
    List.filterMap_eq_nil.mpr (fun s hs => codeLineOf_none_of_no_tok _ s (hC s hs).2.2)]
  simp only [List.nil_append, List.append_nil]
  rw [show String.mk l1.data = l1 from rfl, show String.mk l2.data = l2 from rfl,
    hcode1, hcode2]

/-! ## C7: fenced code blocks -/

/-- C7 counterexample to the claim as stated: this body contains two
fenced code blocks in the regex sense — the fence scan of
`extractCodeBlocks` finds exactly two matches (`js`-tagged `code`, and
untagged `K`) — yet `parseContentElements` emits only ONE Code element,
not two: the first match opens mid-line, so its placeholder lands inside
the line `before __CODE_BLOCK_0__ after`, whose trimmed text is not a
bare placeholder; the classification pass then flushes and emits nothing
for that line, silently losing the first block and the surrounding text. -/
theorem parseContentElements_inline_fence_cex :
    (scanFences ("before ```js\ncode``` after\n```\nK\n```").data).length = 2 ∧
    parseContentElements "before ```js\ncode``` after\n```\nK\n```" =
      [CElem.code "text" "K"] := by
  decide

/-- C7 (corrected): the claim holds for line-aligned fences.  First
conjunct: in a body whose two fences open at the start of a line (with a
word-character language tag) and close on a line holding exactly
` ``` `, and whose other lines contain no newline, no triple backtick
and (outside the fence bodies) no code-block token, `parseContentElements`
emits exactly two Code elements, in source order, with the fence markers
stripped, the body trimmed, and the language defaulting to `text` when
the tag is empty.  Second conjunct: a body whose single fence opener is
never terminated parses without failure into one Text element holding
the whole body, fence text included, trimmed — provided every line is
plain text (non-blank, not a bullet, not pipe-led, token-free).  The
original claim's unrestricted form is refuted by
`parseContentElements_inline_fence_cex`: a fence opening mid-line loses
its Code element entirely. -/
theorem parseContentElements_code_blocks :
    (∀ (A B1 M B2 C : List String) (l1 l2 : String),
      (∀ c ∈ l1.data, isWordChar c = true) →
      (∀ c ∈ l2.data, isWordChar c = true) →
      (∀ s ∈ A, '\n' ∉ s.data ∧ hasSeq "```".data s.data = false ∧ hasCodeTok s = false) →
      (∀ s ∈ M, '\n' ∉ s.data ∧ hasSeq "```".data s.data = false ∧ hasCodeTok s = false) →
      (∀ s ∈ C, '\n' ∉ s.data ∧ hasSeq "```".data s.data = false ∧ hasCodeTok s = false) →
      (∀ s ∈ B1, '\n' ∉ s.data ∧ hasSeq "```".data s.data = false) →
      (∀ s ∈ B2, '\n' ∉ s.data ∧ hasSeq "```".data s.data = false) →
      codesOf (parseContentElements (joinNl
        (A ++ ("```" ++ l1) :: (B1 ++ "```" :: (M ++ ("```" ++ l2) :: (B2 ++ "```" :: C)))))) =
        [(if l1 = "" then "text" else l1, jsTrim (joinNl B1)),
         (if l2 = "" then "text" else l2, jsTrim (joinNl B2))]) ∧
    (∀ (A B : List String) (l : String),
      (∀ c ∈ l.data, isWordChar c = true) →
      (∀ s ∈ A, '\n' ∉ s.data ∧ hasSeq "```".data s.data = false ∧
        hasCodeTok s = false ∧ hasTableTok s = false ∧ isBulletLine s = false ∧
        startsPipe s = false ∧ jsTrim s ≠ "") →
      (∀ s ∈ B, '\n' ∉ s.data ∧ hasSeq "```".data s.data = false ∧
        hasCodeTok s = false ∧ hasTableTok s = false ∧ isBulletLine s = false ∧
        startsPipe s = false ∧ jsTrim s ≠ "") →
      hasCodeTok ("```" ++ l) = false →
      hasTableTok ("```" ++ l) = false →
      parseContentElements (joinNl (A ++ ("```" ++ l) :: B)) =
        [CElem.text (jsTrim (joinNl (A ++ ("```" ++ l) :: B)))]) :=
  ⟨fun A B1 M B2 C l1 l2 h1 h2 h3 h4 h5 h6 h7 =>
    two_fences_codes A B1 M B2 C l1 l2 h1 h2 h3 h4 h5 h6 h7,
   fun A B l h1 h2 h3 h4 h5 =>
    unterminated_fence_text A B l h1 h2 h3 h4 h5⟩

/-- C7 witness: both conjuncts of `parseContentElements_code_blocks`
hold at concrete inputs, with every hypothesis discharged by evaluation;
the joined bodies are also evaluated to literal strings. -/
theorem parseContentElements_code_blocks_witness :
    joinNl (["intro"] ++ ("```" ++ "js") :: (["alpha"] ++ "```" ::
        (["mid"] ++ ("```" ++ "") :: (["beta"] ++ "```" :: ["end"]))))
      = "intro\n```js\nalpha\n```\nmid\n```\nbeta\n```\nend" ∧
    codesOf (parseContentElements (joinNl (["intro"] ++ ("```" ++ "js") :: (["alpha"] ++ "```" ::
        (["mid"] ++ ("```" ++ "") :: (["beta"] ++ "```" :: ["end"]))))))
      = [(if "js" = "" then "text" else "js", jsTrim (joinNl ["alpha"])),
         (if "" = "" then "text" else "", jsTrim (joinNl ["beta"]))] ∧
    joinNl (["x"] ++ ("```" ++ "js") :: ["y"]) = "x\n```js\ny" ∧
    parseContentElements (joinNl (["x"] ++ ("```" ++ "js") :: ["y"])) =
      [CElem.text (jsTrim (joinNl (["x"] ++ ("```" ++ "js") :: ["y"])))] :=
  ⟨by decide,
   parseContentElements_code_blocks.1 ["intro"] ["alpha"] ["mid"] ["beta"] ["end"] "js" ""
     (by decide) (by decide) (by decide) (by decide) (by decide) (by decide) (by decide),
   by decide,
   parseContentElements_code_blocks.2 ["x"] ["y"] "js"
     (by decide) (by decide) (by decide) (by decide) (by decide)⟩

end PptxGen
